import Mathlib

/-!
Verification of the substack-epub-downloader core against its specification.

The Rust sources under `src/src-tauri/src/` are shallowly embedded:
pure string functions become Lean functions on `String`/`List Char`;
the HTML body is modelled as a list of chunks (plain text pieces and
anchor elements, which is the granularity at which the footnote
reconciler's regexes operate); `HashMap`/`HashSet` become association
lists/lists used only through membership and lookup; fallible
operations return `Option`/`Except`.  External collaborators (chrono
date parsing, html2text, the network, the file system) are modelled as
explicit oracle parameters, so every theorem quantifies over their
behaviour.
-/

namespace SubstackEpub

/-- The apostrophe character (code point 39). -/
def apostropheChar : Char := Char.ofNat 39

/-- One character of the `escape_xml` scan from `utils.rs`: each of the
five reserved markup characters expands to its entity, every other
character is kept. -/
def escapeChar (c : Char) : List Char :=
  if c = '&' then "&amp;".data
  else if c = '<' then "&lt;".data
  else if c = '>' then "&gt;".data
  else if c = '"' then "&quot;".data
  else if c = apostropheChar then "&apos;".data
  else [c]

/-- The character-by-character expansion loop of `escape_xml`. -/
def escapeList (l : List Char) : List Char :=
  l.foldr (fun c acc => escapeChar c ++ acc) []

/-- Embeds `utils.rs::escape_xml`: an early return hands the input back
unchanged when none of the five reserved characters occurs, otherwise
the expansion loop runs. -/
def escape_xml (value : String) : String :=
  if !(value.data.contains '&' || value.data.contains '<' || value.data.contains '>'
      || value.data.contains '"' || value.data.contains apostropheChar) then
    value
  else
    String.mk (escapeList value.data)

/-- A character is one of the five reserved markup characters. -/
def isReservedXmlChar (c : Char) : Bool :=
  c == '&' || c == '<' || c == '>' || c == '"' || c == apostropheChar

lemma escapeChar_of_not_reserved {c : Char} (h : isReservedXmlChar c = false) :
    escapeChar c = [c] := by
  simp only [isReservedXmlChar, Bool.or_eq_false_iff, beq_eq_false_iff_ne, ne_eq] at h
  obtain ⟨⟨⟨⟨h1, h2⟩, h3⟩, h4⟩, h5⟩ := h
  simp [escapeChar, h1, h2, h3, h4, h5]

lemma escapeChar_length_pos (c : Char) : 0 < (escapeChar c).length := by
  by_cases h : isReservedXmlChar c = true
  · simp only [isReservedXmlChar, Bool.or_eq_true, beq_iff_eq] at h
    rcases h with ((((h | h) | h) | h) | h) <;> subst h <;> decide
  · rw [escapeChar_of_not_reserved (by simpa using h)]
    simp

lemma escapeChar_reserved {c : Char} (h : isReservedXmlChar c = true) :
    4 ≤ (escapeChar c).length ∧ '&' ∈ escapeChar c := by
  simp only [isReservedXmlChar, Bool.or_eq_true, beq_iff_eq] at h
  rcases h with ((((h | h) | h) | h) | h) <;> subst h <;> exact ⟨by decide, by decide⟩

lemma escapeList_cons (c : Char) (t : List Char) :
    escapeList (c :: t) = escapeChar c ++ escapeList t := rfl

lemma escapeList_of_all_plain {l : List Char} (h : l.any isReservedXmlChar = false) :
    escapeList l = l := by
  induction l with
  | nil => rfl
  | cons c t ih =>
    simp only [List.any_cons, Bool.or_eq_false_iff] at h
    rw [escapeList_cons, escapeChar_of_not_reserved h.1, ih h.2]
    rfl

lemma length_le_escapeList (l : List Char) : l.length ≤ (escapeList l).length := by
  induction l with
  | nil => simp [escapeList]
  | cons c t ih =>
    rw [escapeList_cons, List.length_append]
    have := escapeChar_length_pos c
    simp only [List.length_cons]
    omega

lemma length_lt_escapeList {l : List Char} (h : l.any isReservedXmlChar = true) :
    l.length < (escapeList l).length := by
  induction l with
  | nil => simp at h
  | cons c t ih =>
    rw [escapeList_cons, List.length_append]
    simp only [List.any_cons, Bool.or_eq_true] at h
    rcases h with h | h
    · have h4 := (escapeChar_reserved h).1
      have := length_le_escapeList t
      simp only [List.length_cons]
      omega
    · have := ih h
      have := escapeChar_length_pos c
      simp only [List.length_cons]
      omega

lemma amp_mem_escapeList {l : List Char} (h : l.any isReservedXmlChar = true) :
    '&' ∈ escapeList l := by
  induction l with
  | nil => simp at h
  | cons c t ih =>
    rw [escapeList_cons]
    simp only [List.any_cons, Bool.or_eq_true] at h
    rcases h with h | h
    · exact List.mem_append.mpr (Or.inl (escapeChar_reserved h).2)
    · exact List.mem_append.mpr (Or.inr (ih h))

lemma reserved_guard_iff (l : List Char) :
    (l.contains '&' || l.contains '<' || l.contains '>'
      || l.contains '"' || l.contains apostropheChar) = l.any isReservedXmlChar := by
  induction l with
  | nil => rfl
  | cons c t ih =>
    simp only [List.contains_cons, List.any_cons, isReservedXmlChar] at *
    rw [← ih]
    cases h1 : ('&' == c) <;> cases h2 : ('<' == c) <;> cases h3 : ('>' == c)
      <;> cases h4 : ('"' == c) <;> cases h5 : (apostropheChar == c) <;>
      simp_all [BEq.comm]

lemma escape_xml_eq_escapeList (s : String) :
    escape_xml s = String.mk (escapeList s.data) := by
  unfold escape_xml
  rw [reserved_guard_iff]
  by_cases h : s.data.any isReservedXmlChar = true
  · simp [h]
  · have h0 : s.data.any isReservedXmlChar = false := by simpa using h
    rw [h0]
    simp [escapeList_of_all_plain h0]

lemma escape_xml_of_plain {s : String} (h : s.data.any isReservedXmlChar = false) :
    escape_xml s = s := by
  rw [escape_xml_eq_escapeList, escapeList_of_all_plain h]

lemma escape_xml_ne_of_reserved {s : String} (h : s.data.any isReservedXmlChar = true) :
    escape_xml s ≠ s := by
  rw [escape_xml_eq_escapeList]
  intro heq
  have hdata : escapeList s.data = s.data := congrArg String.data heq
  have := length_lt_escapeList h
  rw [hdata] at this
  omega

/-- C6: `escape_xml` replaces each of the five reserved markup characters
by its entity and leaves every other character unchanged; it is the
identity exactly on strings containing none of the five characters, and
escaping twice differs from escaping once exactly on strings containing
at least one reserved character (double-encoding). -/
theorem C6_escape_xml_correct (s : String) :
    escape_xml s = String.mk (escapeList s.data)
    ∧ (escape_xml s = s ↔ s.data.any isReservedXmlChar = false)
    ∧ (escape_xml (escape_xml s) ≠ escape_xml s ↔ s.data.any isReservedXmlChar = true) := by
  refine ⟨escape_xml_eq_escapeList s, ⟨?_, escape_xml_of_plain⟩, ?_, ?_⟩
  · intro heq
    by_contra hres
    exact escape_xml_ne_of_reserved (by simpa using hres) heq
  · intro hne
    by_contra hres
    have h0 : s.data.any isReservedXmlChar = false := by simpa using hres
    rw [escape_xml_of_plain h0, escape_xml_of_plain h0] at hne
    exact hne rfl
  · intro hres
    apply escape_xml_ne_of_reserved
    rw [escape_xml_eq_escapeList]
    exact List.any_eq_true.mpr ⟨'&', amp_mem_escapeList hres, by decide⟩

/-! ## Shared string helpers (Rust standard-library behaviour used by `substack.rs`) -/

/-- `pat` occurs as a contiguous substring of `l` (Rust `str::contains`). -/
def listContainsSeq (pat : List Char) : List Char → Bool
  | [] => pat.isEmpty
  | c :: rest => pat.isPrefixOf (c :: rest) || listContainsSeq pat rest

/-- Rust `str::contains` for string literals. -/
def strContains (s pat : String) : Bool :=
  listContainsSeq pat.data s.data

/-- Rust `str::starts_with` for string literals. -/
def strStartsWith (s pat : String) : Bool :=
  pat.data.isPrefixOf s.data

/-- Rust `str::to_ascii_lowercase` (Lean's `Char.toLower` lowers exactly
the ASCII uppercase letters). -/
def lowerAscii (s : String) : String :=
  String.mk (s.data.map Char.toLower)

/-- Rust `str::trim` on a character list: whitespace removed from both ends. -/
def trimChars (l : List Char) : List Char :=
  ((l.dropWhile Char.isWhitespace).reverse.dropWhile Char.isWhitespace).reverse

/-- Rust `str::trim`. -/
def rustTrim (s : String) : String :=
  String.mk (trimChars s.data)

/-! ## Footnote reconciler data model and helpers (`substack.rs`) -/

/-- Embeds `substack.rs::FootnoteCandidate`: element ids the block
exposes, fragment targets of its outgoing links, and its cleaned text
(the `HashSet`s are modelled as lists used only through membership). -/
structure FootnoteCandidate where
  ids : List String
  href_targets : List String
  text : String
deriving Repr, DecidableEq

/-- Embeds `substack.rs::FootnoteEntry`. -/
structure FootnoteEntry where
  id : String
  number : Nat
  text : String
deriving Repr, DecidableEq

/-- A post body fragment, modelled at the granularity the reconciler's
regexes operate at: plain markup runs and `<a href=...>...</a>` elements
(`href` and `class` attribute values, plus the full original anchor
markup `raw`). -/
inductive HtmlChunk where
  | text (s : String)
  | anchor (href : String) (className : String) (raw : String)
deriving Repr, DecidableEq

/-- Embeds `substack.rs::extract_fragment_id_from_href`: the trimmed
text after the last `#`, if nonempty. -/
def extract_fragment_id_from_href (href : String) : Option String :=
  if href.data.contains '#' then
    let raw := trimChars (href.data.reverse.takeWhile (fun c => c ≠ '#')).reverse
    if raw.isEmpty then none else some (String.mk raw)
  else none

/-- Embeds `substack.rs::normalize_footnote_key`: keep ASCII
alphanumeric characters only, lowercased. -/
def normalize_footnote_key (value : String) : String :=
  String.mk ((value.data.filter Char.isAlphanum).map Char.toLower)

/-- Embeds `substack.rs::looks_like_footnote_id`. -/
def looks_like_footnote_id (id : String) : Bool :=
  let idl := lowerAscii id
  if strContains idl "footnote-anchor" then false
  else strContains idl "footnote" || strStartsWith idl "fn" || strContains idl "fn-"

/-- Embeds `substack.rs::is_meaningful_footnote_text`. -/
def is_meaningful_footnote_text (value : String) : Bool :=
  let trimmed := rustTrim value
  if trimmed.isEmpty then false
  else
    let lower := lowerAscii trimmed
    let normalized := String.mk (trimChars
      (((lower.data.dropWhile (fun ch => !ch.isAlphanum)).reverse.dropWhile
        (fun ch => !ch.isAlphanum)).reverse))
    if normalized.isEmpty then false
    else
      let trivialPhrases := ["back", "return", "back to content", "return to article",
        "return to content", "see above"]
      if trivialPhrases.contains normalized then false
      else !(normalized.data.all Char.isDigit)

/-- Embeds `substack.rs::footnote_candidate_contains_target`: exact
case-insensitive id equality, or equality of the nonempty
alphanumeric-only keys, checked against the candidate's element ids and
its outgoing link targets. -/
def footnote_candidate_contains_target (candidate : FootnoteCandidate) (target_id : String) : Bool :=
  let target_exact := lowerAscii target_id
  let target_key := normalize_footnote_key target_id
  candidate.ids.any (fun id =>
    lowerAscii id == target_exact
      || (!(normalize_footnote_key id == "") && normalize_footnote_key id == target_key))
  || candidate.href_targets.any (fun target =>
    lowerAscii target == target_exact
      || (!(normalize_footnote_key target == "") && normalize_footnote_key target == target_key))

/-- The anchors of a body fragment, in document order. -/
def anchorsOf (chunks : List HtmlChunk) : List (String × String) :=
  chunks.filterMap fun
    | .anchor href className _ => some (href, className)
    | .text _ => none

/-- One step of the dedup-preserving push used throughout
`collect_footnote_target_ids` (`seen.insert` + `result.push`). -/
def pushFresh (acc : List String × List String) (id : String) : List String × List String :=
  if acc.2.contains id then acc else (acc.1 ++ [id], id :: acc.2)

/-- The first scan of `collect_footnote_target_ids`: Substack
`footnote-anchor`-class links always contribute their fragment id. -/
def pass1Step (acc : List String × List String) (a : String × String) :
    List String × List String :=
  if strContains a.2 "footnote-anchor" then
    match extract_fragment_id_from_href a.1 with
    | some id => if !id.isEmpty then pushFresh acc id else acc
    | none => acc
  else acc

/-- The second scan of `collect_footnote_target_ids`: any link whose
fragment id contains `footnote` or starts with `fn`, excluding
`footnote-anchor` reference-side ids. -/
def pass2Step (acc : List String × List String) (a : String × String) :
    List String × List String :=
  match extract_fragment_id_from_href a.1 with
  | some id =>
    if id.isEmpty then acc
    else
      let lower := lowerAscii id
      if !(strContains lower "footnote" || strStartsWith lower "fn") then acc
      else if strContains lower "footnote-anchor" then acc
      else pushFresh acc id
  | none => acc

/-- Embeds `substack.rs::collect_footnote_target_ids`: first the
Substack `footnote-anchor`-class links contribute their fragment ids,
then every remaining qualifying link, all deduplicated in scan order
through a shared seen-set. -/
def collect_footnote_target_ids (chunks : List HtmlChunk) : List String :=
  ((anchorsOf chunks).foldl pass2Step ((anchorsOf chunks).foldl pass1Step ([], []))).1

/-- The `candidates.iter().enumerate().find(...)` step of
`extract_footnotes`: the first still-unused candidate index whose ids or
link targets contain the target. -/
def findCandidateIdx (cands : List (Nat × FootnoteCandidate)) (used : List Nat)
    (target : String) : Option Nat :=
  match cands with
  | [] => none
  | (i, c) :: rest =>
    if !used.contains i && footnote_candidate_contains_target c target then some i
    else findCandidateIdx rest used target

/-- The main loop of `substack.rs::extract_footnotes`, with its state
(`seen_target_ids`, `used_candidates`, `notes`, `ordered_ref_targets`)
made explicit. -/
def extractFootnotesLoop (cands : List FootnoteCandidate) :
    List String → List String → List Nat → List FootnoteEntry → List String →
    List FootnoteEntry × List String
  | [], _, _, notes, refs => (notes, refs)
  | t :: ts, seen, used, notes, refs =>
    if strContains (lowerAscii t) "ref" || seen.contains t then
      extractFootnotesLoop cands ts seen used notes refs
    else
      match findCandidateIdx cands.enum used t with
      | none => extractFootnotesLoop cands ts (t :: seen) used notes (refs ++ [t])
      | some i =>
        let text := (cands.getD i ⟨[], [], ""⟩).text
        if is_meaningful_footnote_text text then
          extractFootnotesLoop cands ts (t :: seen) (i :: used)
            (notes ++ [⟨t, notes.length + 1, text⟩]) (refs ++ [t])
        else
          extractFootnotesLoop cands ts (t :: seen) (i :: used) notes (refs ++ [t])

/-- The strict positional fallback of `extract_footnotes`: the k-th
reference target is paired with the k-th candidate in document order. -/
def positionalFootnotesLoop (cands : List FootnoteCandidate) :
    List (Nat × String) → List FootnoteEntry → List FootnoteEntry
  | [], notes => notes
  | (position, target) :: rest, notes =>
    match cands[position]? with
    | some candidate =>
      if is_meaningful_footnote_text candidate.text then
        positionalFootnotesLoop cands rest (notes ++ [⟨target, notes.length + 1, candidate.text⟩])
      else positionalFootnotesLoop cands rest notes
    | none => positionalFootnotesLoop cands rest notes

/-- Embeds `substack.rs::extract_footnotes` over a body fragment and the
candidate list produced by `collect_footnote_candidates`. -/
def extract_footnotes (chunks : List HtmlChunk) (cands : List FootnoteCandidate) :
    List FootnoteEntry :=
  if (extractFootnotesLoop cands (collect_footnote_target_ids chunks) [] [] [] []).1.isEmpty then
    positionalFootnotesLoop cands
      (extractFootnotesLoop cands (collect_footnote_target_ids chunks) [] [] [] []).2.enum []
  else (extractFootnotesLoop cands (collect_footnote_target_ids chunks) [] [] [] []).1

/-! ## C1: footnote numbering -/

/-- First-occurrence-preserving deduplication, as performed by the
seen-set in `collect_footnote_target_ids`. -/
def dedupKeepFirst (l : List String) : List String :=
  (l.foldl pushFresh ([], [])).1

/-- The acceptance test of the second scan of
`collect_footnote_target_ids`, as one predicate. -/
def pass2Keep (id : String) : Bool :=
  !id.isEmpty
    && (strContains (lowerAscii id) "footnote" || strStartsWith (lowerAscii id) "fn")
    && !(strContains (lowerAscii id) "footnote-anchor")

/-- Reference targets in order of first appearance of their reference in
the body, restricted to ids the second scan accepts. -/
def bodyOrderTargets (chunks : List HtmlChunk) : List String :=
  dedupKeepFirst
    ((((anchorsOf chunks).filterMap (fun a => extract_fragment_id_from_href a.1))).filter pass2Keep)

/-- Position of the first in-body reference whose fragment id is the
given target. -/
def firstRefPosition (chunks : List HtmlChunk) (target : String) : Option Nat :=
  (anchorsOf chunks).findIdx? (fun a => extract_fragment_id_from_href a.1 == some target)

lemma pass2Step_eq (acc : List String × List String) (a : String × String) :
    pass2Step acc a = match extract_fragment_id_from_href a.1 with
      | some id => if pass2Keep id then pushFresh acc id else acc
      | none => acc := by
  unfold pass2Step pass2Keep
  cases extract_fragment_id_from_href a.1 with
  | none => rfl
  | some id =>
    by_cases h1 : id.isEmpty <;>
      by_cases h2 : (strContains (lowerAscii id) "footnote"
        || strStartsWith (lowerAscii id) "fn") = true <;>
      by_cases h3 : strContains (lowerAscii id) "footnote-anchor" <;>
      simp [h1, h2, h3]

lemma foldl_pass2Step (anchors : List (String × String)) :
    ∀ acc, anchors.foldl pass2Step acc
      = (((anchors.filterMap (fun a => extract_fragment_id_from_href a.1))).filter
          pass2Keep).foldl pushFresh acc := by
  induction anchors with
  | nil => intro acc; rfl
  | cons a rest ih =>
    intro acc
    rw [List.foldl_cons, pass2Step_eq]
    cases hx : extract_fragment_id_from_href a.1 with
    | none => simp [List.filterMap_cons, hx, ih]
    | some id =>
      by_cases hk : pass2Keep id
      · simp [List.filterMap_cons, hx, List.filter_cons, hk, ih]
      · simp [List.filterMap_cons, hx, List.filter_cons, hk, ih]

lemma foldl_pass1Step_of_no_class {anchors : List (String × String)}
    (h : ∀ a ∈ anchors, strContains a.2 "footnote-anchor" = false) :
    ∀ acc, anchors.foldl pass1Step acc = acc := by
  induction anchors with
  | nil => intro acc; rfl
  | cons a rest ih =>
    intro acc
    rw [List.foldl_cons]
    have ha : strContains a.2 "footnote-anchor" = false := h a (List.mem_cons_self a rest)
    have hstep : pass1Step acc a = acc := by simp [pass1Step, ha]
    rw [hstep]
    exact ih (fun b hb => h b (List.mem_cons_of_mem a hb)) acc

lemma range'_push (n : Nat) : List.range' 1 n ++ [n + 1] = List.range' 1 (n + 1) := by
  rw [List.range'_concat]
  simp [Nat.add_comm]

lemma extractFootnotesLoop_skip (cands : List FootnoteCandidate) (ts : List String)
    {t : String} {seen : List String} (used : List Nat) (notes : List FootnoteEntry)
    (refs : List String)
    (h : (strContains (lowerAscii t) "ref" || seen.contains t) = true) :
    extractFootnotesLoop cands (t :: ts) seen used notes refs
      = extractFootnotesLoop cands ts seen used notes refs := by
  simp only [extractFootnotesLoop]
  rw [if_pos h]

lemma extractFootnotesLoop_nomatch (cands : List FootnoteCandidate) (ts : List String)
    {t : String} {seen : List String} {used : List Nat} (notes : List FootnoteEntry)
    (refs : List String)
    (h : (strContains (lowerAscii t) "ref" || seen.contains t) = false)
    (hfind : findCandidateIdx cands.enum used t = none) :
    extractFootnotesLoop cands (t :: ts) seen used notes refs
      = extractFootnotesLoop cands ts (t :: seen) used notes (refs ++ [t]) := by
  simp only [extractFootnotesLoop]
  rw [if_neg (by intro hc; rw [h] at hc; exact Bool.false_ne_true hc), hfind]

lemma extractFootnotesLoop_accept (cands : List FootnoteCandidate) (ts : List String)
    {t : String} {seen : List String} {used : List Nat} (notes : List FootnoteEntry)
    (refs : List String) {i : Nat}
    (h : (strContains (lowerAscii t) "ref" || seen.contains t) = false)
    (hfind : findCandidateIdx cands.enum used t = some i)
    (hm : is_meaningful_footnote_text (cands.getD i ⟨[], [], ""⟩).text = true) :
    extractFootnotesLoop cands (t :: ts) seen used notes refs
      = extractFootnotesLoop cands ts (t :: seen) (i :: used)
          (notes ++ [⟨t, notes.length + 1, (cands.getD i ⟨[], [], ""⟩).text⟩]) (refs ++ [t]) := by
  simp only [extractFootnotesLoop]
  rw [if_neg (by intro hc; rw [h] at hc; exact Bool.false_ne_true hc), hfind]
  simp only [hm, if_true]

lemma extractFootnotesLoop_discard (cands : List FootnoteCandidate) (ts : List String)
    {t : String} {seen : List String} {used : List Nat} (notes : List FootnoteEntry)
    (refs : List String) {i : Nat}
    (h : (strContains (lowerAscii t) "ref" || seen.contains t) = false)
    (hfind : findCandidateIdx cands.enum used t = some i)
    (hm : is_meaningful_footnote_text (cands.getD i ⟨[], [], ""⟩).text = false) :
    extractFootnotesLoop cands (t :: ts) seen used notes refs
      = extractFootnotesLoop cands ts (t :: seen) (i :: used) notes (refs ++ [t]) := by
  simp only [extractFootnotesLoop]
  rw [if_neg (by intro hc; rw [h] at hc; exact Bool.false_ne_true hc), hfind]
  simp only [hm]
  rw [if_neg (by simp)]

lemma positionalFootnotesLoop_miss (cands : List FootnoteCandidate)
    (rest : List (Nat × String)) {position : Nat} (target : String)
    (notes : List FootnoteEntry) (hget : cands[position]? = none) :
    positionalFootnotesLoop cands ((position, target) :: rest) notes
      = positionalFootnotesLoop cands rest notes := by
  simp only [positionalFootnotesLoop]
  rw [hget]

lemma positionalFootnotesLoop_accept (cands : List FootnoteCandidate)
    (rest : List (Nat × String)) {position : Nat} (target : String)
    (notes : List FootnoteEntry) {candidate : FootnoteCandidate}
    (hget : cands[position]? = some candidate)
    (hm : is_meaningful_footnote_text candidate.text = true) :
    positionalFootnotesLoop cands ((position, target) :: rest) notes
      = positionalFootnotesLoop cands rest
          (notes ++ [⟨target, notes.length + 1, candidate.text⟩]) := by
  simp only [positionalFootnotesLoop]
  rw [hget]
  simp only [hm, if_true]

lemma positionalFootnotesLoop_discard (cands : List FootnoteCandidate)
    (rest : List (Nat × String)) {position : Nat} (target : String)
    (notes : List FootnoteEntry) {candidate : FootnoteCandidate}
    (hget : cands[position]? = some candidate)
    (hm : is_meaningful_footnote_text candidate.text = false) :
    positionalFootnotesLoop cands ((position, target) :: rest) notes
      = positionalFootnotesLoop cands rest notes := by
  simp only [positionalFootnotesLoop]
  rw [hget]
  simp only [hm]
  rw [if_neg (by simp)]

/-- The notes accumulator of the main loop stays numbered `1..length`. -/
lemma extractFootnotesLoop_numbers (cands : List FootnoteCandidate) (ts : List String) :
    ∀ seen used notes refs,
      List.map (fun n => n.number) notes = List.range' 1 notes.length →
      List.map (fun n => n.number) (extractFootnotesLoop cands ts seen used notes refs).1
        = List.range' 1 (extractFootnotesLoop cands ts seen used notes refs).1.length := by
  induction ts with
  | nil => intro _ _ notes _ h; simpa [extractFootnotesLoop] using h
  | cons t ts ih =>
    intro seen used notes refs h
    by_cases hskip : (strContains (lowerAscii t) "ref" || seen.contains t) = true
    · rw [extractFootnotesLoop_skip cands ts used notes refs hskip]
      exact ih _ _ _ _ h
    · have hskip0 : (strContains (lowerAscii t) "ref" || seen.contains t) = false := by
        simpa using hskip
      cases hfind : findCandidateIdx cands.enum used t with
      | none =>
        rw [extractFootnotesLoop_nomatch cands ts notes refs hskip0 hfind]
        exact ih _ _ _ _ h
      | some i =>
        by_cases hm : is_meaningful_footnote_text (cands.getD i ⟨[], [], ""⟩).text = true
        · rw [extractFootnotesLoop_accept cands ts notes refs hskip0 hfind hm]
          refine ih _ _ _ _ ?_
          simp [List.map_append, h, range'_push]
        · rw [extractFootnotesLoop_discard cands ts notes refs hskip0 hfind (by simpa using hm)]
          exact ih _ _ _ _ h

/-- The ids the main loop appends come, in order, from the targets it
still has to process; the ordered-reference accumulator likewise. -/
lemma extractFootnotesLoop_ids (cands : List FootnoteCandidate) (ts : List String) :
    ∀ seen used notes refs,
      ∃ newIds newRefs,
        List.map (fun n => n.id) (extractFootnotesLoop cands ts seen used notes refs).1
          = List.map (fun n => n.id) notes ++ newIds
        ∧ (extractFootnotesLoop cands ts seen used notes refs).2 = refs ++ newRefs
        ∧ newIds.Sublist newRefs ∧ newRefs.Sublist ts := by
  induction ts with
  | nil =>
    intro _ _ notes refs
    exact ⟨[], [], by simp [extractFootnotesLoop], by simp [extractFootnotesLoop],
      List.Sublist.refl _, List.nil_sublist _⟩
  | cons t ts ih =>
    intro seen used notes refs
    by_cases hskip : (strContains (lowerAscii t) "ref" || seen.contains t) = true
    · obtain ⟨ni, nr, h1, h2, h3, h4⟩ := ih seen used notes refs
      rw [extractFootnotesLoop_skip cands ts used notes refs hskip]
      exact ⟨ni, nr, h1, h2, h3, h4.cons t⟩
    · have hskip0 : (strContains (lowerAscii t) "ref" || seen.contains t) = false := by
        simpa using hskip
      cases hfind : findCandidateIdx cands.enum used t with
      | none =>
        obtain ⟨ni, nr, h1, h2, h3, h4⟩ := ih (t :: seen) used notes (refs ++ [t])
        rw [extractFootnotesLoop_nomatch cands ts notes refs hskip0 hfind]
        exact ⟨ni, t :: nr, h1, by rw [h2, List.append_assoc]; rfl,
          h3.cons t, h4.cons₂ t⟩
      | some i =>
        by_cases hm : is_meaningful_footnote_text (cands.getD i ⟨[], [], ""⟩).text = true
        · obtain ⟨ni, nr, h1, h2, h3, h4⟩ := ih (t :: seen) (i :: used)
            (notes ++ [⟨t, notes.length + 1, (cands.getD i ⟨[], [], ""⟩).text⟩]) (refs ++ [t])
          rw [extractFootnotesLoop_accept cands ts notes refs hskip0 hfind hm]
          refine ⟨t :: ni, t :: nr, ?_, by rw [h2, List.append_assoc]; rfl,
            h3.cons₂ t, h4.cons₂ t⟩
          rw [h1, List.map_append, List.append_assoc]
          rfl
        · obtain ⟨ni, nr, h1, h2, h3, h4⟩ := ih (t :: seen) (i :: used) notes (refs ++ [t])
          rw [extractFootnotesLoop_discard cands ts notes refs hskip0 hfind (by simpa using hm)]
          exact ⟨ni, t :: nr, h1, by rw [h2, List.append_assoc]; rfl,
            h3.cons t, h4.cons₂ t⟩

/-- Numbering invariant of the positional fallback loop. -/
lemma positionalFootnotesLoop_numbers (cands : List FootnoteCandidate)
    (pairs : List (Nat × String)) :
    ∀ notes,
      List.map (fun n => n.number) notes = List.range' 1 notes.length →
      List.map (fun n => n.number) (positionalFootnotesLoop cands pairs notes)
        = List.range' 1 (positionalFootnotesLoop cands pairs notes).length := by
  induction pairs with
  | nil => intro notes h; simpa [positionalFootnotesLoop] using h
  | cons p rest ih =>
    intro notes h
    obtain ⟨position, target⟩ := p
    cases hget : cands[position]? with
    | none =>
      rw [positionalFootnotesLoop_miss cands rest target notes hget]
      exact ih _ h
    | some candidate =>
      by_cases hm : is_meaningful_footnote_text candidate.text = true
      · rw [positionalFootnotesLoop_accept cands rest target notes hget hm]
        refine ih _ ?_
        simp [List.map_append, h, range'_push]
      · rw [positionalFootnotesLoop_discard cands rest target notes hget (by simpa using hm)]
        exact ih _ h

/-- The ids the positional fallback produces come, in order, from its
reference-target list. -/
lemma positionalFootnotesLoop_ids (cands : List FootnoteCandidate)
    (pairs : List (Nat × String)) :
    ∀ notes,
      ∃ q, List.map (fun n => n.id) (positionalFootnotesLoop cands pairs notes)
        = List.map (fun n => n.id) notes ++ q ∧ q.Sublist (pairs.map Prod.snd) := by
  induction pairs with
  | nil => intro notes; exact ⟨[], by simp [positionalFootnotesLoop], List.nil_sublist _⟩
  | cons p rest ih =>
    intro notes
    obtain ⟨position, target⟩ := p
    cases hget : cands[position]? with
    | none =>
      obtain ⟨q, h1, h2⟩ := ih notes
      rw [positionalFootnotesLoop_miss cands rest target notes hget]
      exact ⟨q, h1, by simpa using h2.cons target⟩
    | some candidate =>
      by_cases hm : is_meaningful_footnote_text candidate.text = true
      · obtain ⟨q, h1, h2⟩ := ih (notes ++ [⟨target, notes.length + 1, candidate.text⟩])
        rw [positionalFootnotesLoop_accept cands rest target notes hget hm]
        refine ⟨target :: q, ?_, by simpa using h2.cons₂ target⟩
        rw [h1, List.map_append, List.append_assoc]
        rfl
      · obtain ⟨q, h1, h2⟩ := ih notes
        rw [positionalFootnotesLoop_discard cands rest target notes hget (by simpa using hm)]
        exact ⟨q, h1, by simpa using h2.cons target⟩

/-- C1 counterexample: a body whose first reference (a plain link to
`fn1`) precedes a Substack `footnote-anchor`-class reference to `fn2`.
Both targets are accepted, yet `fn2` receives number 1 and `fn1` number
2, because the collector scans `footnote-anchor`-class links before the
others — numbering is not first-appearance order of the reference in the
body, contradicting the claim. -/
theorem C1_counterexample :
    firstRefPosition
        [HtmlChunk.anchor "#fn1" "" "<a href=#fn1>1</a>",
         HtmlChunk.anchor "#fn2" "footnote-anchor" "<a class=footnote-anchor href=#fn2>2</a>",
         HtmlChunk.anchor "#fnref-1" "" "<a href=#fnref-1>back</a>",
         HtmlChunk.anchor "#fnref-2" "" "<a href=#fnref-2>back</a>"] "fn1" = some 0
    ∧ firstRefPosition
        [HtmlChunk.anchor "#fn1" "" "<a href=#fn1>1</a>",
         HtmlChunk.anchor "#fn2" "footnote-anchor" "<a class=footnote-anchor href=#fn2>2</a>",
         HtmlChunk.anchor "#fnref-1" "" "<a href=#fnref-1>back</a>",
         HtmlChunk.anchor "#fnref-2" "" "<a href=#fnref-2>back</a>"] "fn2" = some 1
    ∧ (extract_footnotes
        [HtmlChunk.anchor "#fn1" "" "<a href=#fn1>1</a>",
         HtmlChunk.anchor "#fn2" "footnote-anchor" "<a class=footnote-anchor href=#fn2>2</a>",
         HtmlChunk.anchor "#fnref-1" "" "<a href=#fnref-1>back</a>",
         HtmlChunk.anchor "#fnref-2" "" "<a href=#fnref-2>back</a>"]
        [⟨["fn1"], ["fnref-1"], "First note text"⟩, ⟨["fn2"], ["fnref-2"], "Second note text"⟩]).map
          (fun n => (n.id, n.number))
      = [("fn2", 1), ("fn1", 2)] := by
  refine ⟨by decide, by decide, by decide⟩

/-- C1 (amended): footnote numbers always form the contiguous range
`1..N`; accepted targets are numbered in the collector's processing
order (the note ids form a sublist of `collect_footnote_target_ids`);
when no reference carries the Substack `footnote-anchor` class that
processing order is exactly first-appearance body order of the accepted
ids; and in the two-plain-reference scenario `#fn2` before `#fn1`,
`fn2`'s target receives number 1 and `fn1`'s number 2. -/
theorem C1_footnote_numbering :
    (∀ chunks cands, List.map (fun n => n.number) (extract_footnotes chunks cands)
        = List.range' 1 (extract_footnotes chunks cands).length)
    ∧ (∀ chunks cands, (List.map (fun n => n.id) (extract_footnotes chunks cands)).Sublist
        (collect_footnote_target_ids chunks))
    ∧ (∀ chunks, (∀ a ∈ anchorsOf chunks, strContains a.2 "footnote-anchor" = false) →
        collect_footnote_target_ids chunks = bodyOrderTargets chunks)
    ∧ (extract_footnotes
        [HtmlChunk.anchor "#fn2" "" "<a href=#fn2>2</a>",
         HtmlChunk.anchor "#fn1" "" "<a href=#fn1>1</a>"]
        [⟨["fn1"], [], "First block"⟩, ⟨["fn2"], [], "Second block"⟩]
      = [⟨"fn2", 1, "Second block"⟩, ⟨"fn1", 2, "First block"⟩]) := by
  refine ⟨?_, ?_, ?_, by decide⟩
  · intro chunks cands
    unfold extract_footnotes
    by_cases hempty :
        (extractFootnotesLoop cands (collect_footnote_target_ids chunks) [] [] [] []).1.isEmpty
    · simpa [hempty] using
        positionalFootnotesLoop_numbers cands
          (extractFootnotesLoop cands (collect_footnote_target_ids chunks) [] [] [] []).2.enum
          [] (by simp)
    · simpa [hempty] using
        extractFootnotesLoop_numbers cands (collect_footnote_target_ids chunks) [] [] [] []
          (by simp)
  · intro chunks cands
    unfold extract_footnotes
    obtain ⟨ni, nr, h1, h2, h3, h4⟩ :=
      extractFootnotesLoop_ids cands (collect_footnote_target_ids chunks) [] [] [] []
    by_cases hempty :
        (extractFootnotesLoop cands (collect_footnote_target_ids chunks) [] [] [] []).1.isEmpty
    · obtain ⟨q, hq1, hq2⟩ := positionalFootnotesLoop_ids cands
        (extractFootnotesLoop cands (collect_footnote_target_ids chunks) [] [] [] []).2.enum []
      rw [if_pos hempty, hq1]
      simp only [List.map_nil, List.nil_append]
      have : ((extractFootnotesLoop cands (collect_footnote_target_ids chunks) [] [] [] []).2.enum.map
          Prod.snd) = (extractFootnotesLoop cands (collect_footnote_target_ids chunks) [] [] [] []).2 :=
        List.enum_map_snd _
      rw [this] at hq2
      rw [h2] at hq2
      simp only [List.nil_append] at hq2
      exact hq2.trans h4
    · rw [if_neg hempty, h1]
      simp only [List.map_nil, List.nil_append]
      exact h3.trans h4
  · intro chunks hnc
    unfold collect_footnote_target_ids
    rw [foldl_pass1Step_of_no_class hnc, foldl_pass2Step]
    rfl

/-- C1 witness: the no-`footnote-anchor`-class conjunct applied to the
plain two-reference scenario body. -/
theorem C1_footnote_numbering_witness :
    collect_footnote_target_ids
        [HtmlChunk.anchor "#fn2" "" "<a href=#fn2>2</a>",
         HtmlChunk.anchor "#fn1" "" "<a href=#fn1>1</a>"]
      = bodyOrderTargets
        [HtmlChunk.anchor "#fn2" "" "<a href=#fn2>2</a>",
         HtmlChunk.anchor "#fn1" "" "<a href=#fn1>1</a>"] :=
  C1_footnote_numbering.2.2.1
    [HtmlChunk.anchor "#fn2" "" "<a href=#fn2>2</a>",
     HtmlChunk.anchor "#fn1" "" "<a href=#fn1>1</a>"]
    (by decide)

/-! ## C2: candidate matching and positional fallback -/

/-- Spec-side matching criterion (spec 4.3 step 3): exact id equality
case-insensitively, or identifier equality after stripping all
non-alphanumeric characters, checked against candidate element ids and
candidate outgoing link targets alike. -/
def specMatchesTarget (candidate : FootnoteCandidate) (target : String) : Bool :=
  (candidate.ids ++ candidate.href_targets).any (fun id =>
    lowerAscii id == lowerAscii target
      || normalize_footnote_key id == normalize_footnote_key target)

/-- Spec-side greedy search for the first still-available candidate. -/
def specFirstAvailable (cands : List (Nat × FootnoteCandidate)) (used : List Nat)
    (target : String) : Option Nat :=
  match cands with
  | [] => none
  | (i, c) :: rest =>
    if !used.contains i && specMatchesTarget c target then some i
    else specFirstAvailable rest used target

/-- Spec-side greedy pass: targets processed in order, each matched to
the first still-available candidate, each candidate consumed at most
once. -/
def specGreedyPairs (cands : List FootnoteCandidate) :
    List String → List Nat → List (String × FootnoteCandidate)
  | [], _ => []
  | t :: ts, used =>
    match specFirstAvailable cands.enum used t with
    | some i => (t, cands.getD i ⟨[], [], ""⟩) :: specGreedyPairs cands ts (i :: used)
    | none => specGreedyPairs cands ts used

/-- Number accepted pairs `k+1, k+2, ...` in order. -/
def specNumberFrom (k : Nat) : List (String × FootnoteCandidate) → List FootnoteEntry
  | [] => []
  | p :: rest => ⟨p.1, k + 1, p.2.text⟩ :: specNumberFrom (k + 1) rest

/-- Spec-side strict positional pairing: the k-th reference target with
the k-th candidate in document order, non-meaningful text discarded. -/
def specPositional (cands : List FootnoteCandidate) (ts : List String) : List FootnoteEntry :=
  specNumberFrom 0 ((ts.zip cands).filter (fun p => is_meaningful_footnote_text p.2.text))

/-- The discovered reference targets: collected target ids minus the
reference-side ids containing `ref`. -/
def refTargets (chunks : List HtmlChunk) : List String :=
  (collect_footnote_target_ids chunks).filter (fun t => !(strContains (lowerAscii t) "ref"))

lemma specMatchesTarget_eq {target : String} (h : normalize_footnote_key target ≠ "")
    (c : FootnoteCandidate) :
    specMatchesTarget c target = footnote_candidate_contains_target c target := by
  unfold specMatchesTarget footnote_candidate_contains_target
  rw [List.any_append]
  have point : ∀ id : String,
      (lowerAscii id == lowerAscii target
        || normalize_footnote_key id == normalize_footnote_key target)
      = (lowerAscii id == lowerAscii target
        || (!(normalize_footnote_key id == "")
            && normalize_footnote_key id == normalize_footnote_key target)) := by
    intro id
    by_cases hk : normalize_footnote_key id == normalize_footnote_key target
    · have hne : (normalize_footnote_key id == "") = false := by
        have hk2 : normalize_footnote_key id = normalize_footnote_key target := by
          simpa using hk
        rw [beq_eq_false_iff_ne, hk2]
        exact h
      simp [hk, hne]
    · simp only [Bool.not_eq_true] at hk
      simp [hk]
  simp only [point]

lemma specFirstAvailable_eq {target : String} (h : normalize_footnote_key target ≠ "")
    (l : List (Nat × FootnoteCandidate)) (used : List Nat) :
    specFirstAvailable l used target = findCandidateIdx l used target := by
  induction l with
  | nil => rfl
  | cons p rest ih =>
    obtain ⟨i, c⟩ := p
    unfold specFirstAvailable findCandidateIdx
    rw [specMatchesTarget_eq h, ih]

lemma specGreedyPairs_cons (cands : List FootnoteCandidate) (t : String)
    (ts : List String) (used : List Nat) :
    specGreedyPairs cands (t :: ts) used
      = match specFirstAvailable cands.enum used t with
        | some i => (t, cands.getD i ⟨[], [], ""⟩) :: specGreedyPairs cands ts (i :: used)
        | none => specGreedyPairs cands ts used := rfl

lemma pushFresh_inv {acc : List String × List String} (h1 : acc.1.Nodup)
    (h2 : ∀ x ∈ acc.1, x ∈ acc.2) (id : String) :
    (pushFresh acc id).1.Nodup ∧ ∀ x ∈ (pushFresh acc id).1, x ∈ (pushFresh acc id).2 := by
  unfold pushFresh
  by_cases hc : acc.2.contains id
  · rw [if_pos hc]
    exact ⟨h1, h2⟩
  · rw [if_neg hc]
    have hnotmem : id ∉ acc.1 := by
      intro hmem
      exact hc (List.elem_iff.mpr (h2 id hmem))
    constructor
    · simp [List.nodup_append, h1, hnotmem]
    · intro x hx
      rcases List.mem_append.mp hx with hx | hx
      · exact List.mem_cons_of_mem _ (h2 x hx)
      · simp only [List.mem_singleton] at hx
        subst hx
        exact List.mem_cons_self _ _

/-- A fold step that either leaves the accumulator alone or performs a
`pushFresh` preserves the dedup invariant. -/
lemma foldl_pushlike_inv {β : Type} (step : List String × List String → β →
    List String × List String)
    (hstep : ∀ acc a, step acc a = acc ∨ ∃ id, step acc a = pushFresh acc id)
    (l : List β) :
    ∀ acc, acc.1.Nodup → (∀ x ∈ acc.1, x ∈ acc.2) →
      (l.foldl step acc).1.Nodup ∧ ∀ x ∈ (l.foldl step acc).1, x ∈ (l.foldl step acc).2 := by
  induction l with
  | nil => intro acc h1 h2; exact ⟨h1, h2⟩
  | cons a rest ih =>
    intro acc h1 h2
    rw [List.foldl_cons]
    rcases hstep acc a with hs | ⟨id, hs⟩
    · rw [hs]; exact ih acc h1 h2
    · rw [hs]
      obtain ⟨g1, g2⟩ := pushFresh_inv h1 h2 id
      exact ih _ g1 g2

lemma pass1Step_pushlike (acc : List String × List String) (a : String × String) :
    pass1Step acc a = acc ∨ ∃ id, pass1Step acc a = pushFresh acc id := by
  unfold pass1Step
  by_cases h1 : strContains a.2 "footnote-anchor"
  · rw [if_pos h1]
    cases hx : extract_fragment_id_from_href a.1 with
    | none => exact Or.inl rfl
    | some id =>
      dsimp only
      by_cases h2 : !id.isEmpty
      · rw [if_pos h2]; exact Or.inr ⟨id, rfl⟩
      · rw [if_neg h2]; exact Or.inl rfl
  · rw [if_neg h1]; exact Or.inl rfl

lemma pass2Step_pushlike (acc : List String × List String) (a : String × String) :
    pass2Step acc a = acc ∨ ∃ id, pass2Step acc a = pushFresh acc id := by
  rw [pass2Step_eq]
  cases hx : extract_fragment_id_from_href a.1 with
  | none => exact Or.inl rfl
  | some id =>
    dsimp only
    by_cases h2 : pass2Keep id
    · rw [if_pos h2]; exact Or.inr ⟨id, rfl⟩
    · rw [if_neg h2]; exact Or.inl rfl

/-- The collected target-id list is duplicate-free. -/
lemma collect_footnote_target_ids_nodup (chunks : List HtmlChunk) :
    (collect_footnote_target_ids chunks).Nodup := by
  unfold collect_footnote_target_ids
  have base := foldl_pushlike_inv pass1Step pass1Step_pushlike (anchorsOf chunks)
    ([], []) List.nodup_nil (by intro x hx; cases hx)
  exact (foldl_pushlike_inv pass2Step pass2Step_pushlike (anchorsOf chunks)
    _ base.1 base.2).1

lemma findCandidateIdx_mem_fst {used : List Nat} {target : String} :
    ∀ {l : List (Nat × FootnoteCandidate)} {i : Nat},
      findCandidateIdx l used target = some i → i ∈ l.map Prod.fst := by
  intro l
  induction l with
  | nil => intro i h; cases h
  | cons p rest ih =>
    intro i h
    obtain ⟨j, c⟩ := p
    unfold findCandidateIdx at h
    by_cases hc : (!used.contains j && footnote_candidate_contains_target c target) = true
    · rw [if_pos hc] at h
      cases h
      exact List.mem_cons_self _ _
    · rw [if_neg hc] at h
      exact List.mem_cons_of_mem _ (ih h)

lemma findCandidateIdx_lt {cands : List FootnoteCandidate} {used : List Nat}
    {target : String} {i : Nat} (h : findCandidateIdx cands.enum used target = some i) :
    i < cands.length := by
  have := findCandidateIdx_mem_fst h
  rw [List.enum_map_fst] at this
  exact List.mem_range.mp this

lemma getD_mem_of_lt {cands : List FootnoteCandidate} {i : Nat} (h : i < cands.length)
    (d : FootnoteCandidate) : cands.getD i d ∈ cands := by
  rw [List.getD_eq_getElem?_getD, List.getElem?_eq_getElem h]
  exact List.getElem_mem h

/-- Under the pipeline invariants (duplicate-free, alphanumeric-bearing
target ids; meaningful candidate texts) the reconciler's main loop is
exactly the spec's greedy matching pass, numbered from the current note
count, and its ordered-reference accumulator is the non-`ref`-filtered
target list. -/
lemma extractFootnotesLoop_spec (cands : List FootnoteCandidate)
    (hmean : ∀ c ∈ cands, is_meaningful_footnote_text c.text = true) (ts : List String) :
    ∀ seen used notes refs,
      ts.Nodup → (∀ t ∈ ts, t ∉ seen) → (∀ t ∈ ts, normalize_footnote_key t ≠ "") →
      (extractFootnotesLoop cands ts seen used notes refs).1
        = notes ++ specNumberFrom notes.length
            (specGreedyPairs cands (ts.filter (fun t => !(strContains (lowerAscii t) "ref"))) used)
      ∧ (extractFootnotesLoop cands ts seen used notes refs).2
        = refs ++ ts.filter (fun t => !(strContains (lowerAscii t) "ref")) := by
  induction ts with
  | nil =>
    intro seen used notes refs _ _ _
    exact ⟨by simp [extractFootnotesLoop, specGreedyPairs, specNumberFrom],
      by simp [extractFootnotesLoop]⟩
  | cons t ts ih =>
    intro seen used notes refs hnd hfresh hkey
    have hnd' : ts.Nodup := (List.nodup_cons.mp hnd).2
    have htnotin : t ∉ ts := (List.nodup_cons.mp hnd).1
    by_cases href : strContains (lowerAscii t) "ref" = true
    · have hskip : (strContains (lowerAscii t) "ref" || seen.contains t) = true := by
        rw [href]; rfl
      rw [extractFootnotesLoop_skip cands ts used notes refs hskip]
      have := ih seen used notes refs hnd'
        (fun x hx => hfresh x (List.mem_cons_of_mem t hx))
        (fun x hx => hkey x (List.mem_cons_of_mem t hx))
      rw [List.filter_cons_of_neg (by simp [href])]
      exact this
    · have hseen : seen.contains t = false := by
        by_contra hc
        exact hfresh t (List.mem_cons_self t ts)
          (List.elem_iff.mp (Bool.of_not_eq_false hc))
      have hskip0 : (strContains (lowerAscii t) "ref" || seen.contains t) = false := by
        rw [hseen, Bool.of_not_eq_true href]; rfl
      have hfresh' : ∀ x ∈ ts, x ∉ t :: seen := by
        intro x hx hmem
        rcases List.mem_cons.mp hmem with heq | hmem2
        · exact htnotin (heq ▸ hx)
        · exact hfresh x (List.mem_cons_of_mem t hx) hmem2
      have hkey' : ∀ x ∈ ts, normalize_footnote_key x ≠ "" :=
        fun x hx => hkey x (List.mem_cons_of_mem t hx)
      have hfilter : (t :: ts).filter (fun t => !(strContains (lowerAscii t) "ref"))
          = t :: ts.filter (fun t => !(strContains (lowerAscii t) "ref")) :=
        List.filter_cons_of_pos (by simp [Bool.of_not_eq_true href])
      rw [hfilter]
      cases hfind : findCandidateIdx cands.enum used t with
      | none =>
        rw [extractFootnotesLoop_nomatch cands ts notes refs hskip0 hfind]
        have hspec : specGreedyPairs cands
            (t :: ts.filter (fun t => !(strContains (lowerAscii t) "ref"))) used
            = specGreedyPairs cands
                (ts.filter (fun t => !(strContains (lowerAscii t) "ref"))) used := by
          rw [specGreedyPairs_cons,
            specFirstAvailable_eq (hkey t (List.mem_cons_self t ts)), hfind]
        obtain ⟨g1, g2⟩ := ih (t :: seen) used notes (refs ++ [t]) hnd' hfresh' hkey'
        refine ⟨by rw [g1, hspec], ?_⟩
        rw [g2, List.append_assoc]
        rfl
      | some i =>
        have hm : is_meaningful_footnote_text (cands.getD i ⟨[], [], ""⟩).text = true :=
          hmean _ (getD_mem_of_lt (findCandidateIdx_lt hfind) _)
        rw [extractFootnotesLoop_accept cands ts notes refs hskip0 hfind hm]
        have hspec : specGreedyPairs cands
            (t :: ts.filter (fun t => !(strContains (lowerAscii t) "ref"))) used
            = (t, cands.getD i ⟨[], [], ""⟩) :: specGreedyPairs cands
                (ts.filter (fun t => !(strContains (lowerAscii t) "ref"))) (i :: used) := by
          rw [specGreedyPairs_cons,
            specFirstAvailable_eq (hkey t (List.mem_cons_self t ts)), hfind]
        obtain ⟨g1, g2⟩ := ih (t :: seen) (i :: used)
          (notes ++ [⟨t, notes.length + 1, (cands.getD i ⟨[], [], ""⟩).text⟩]) (refs ++ [t])
          hnd' hfresh' hkey'
        constructor
        · rw [g1, hspec]
          simp only [specNumberFrom, List.length_append, List.length_cons,
            List.length_nil, List.append_assoc]
          rfl
        · rw [g2, List.append_assoc]
          rfl

lemma specNumberFrom_nil_iff (k : Nat) (pairs : List (String × FootnoteCandidate)) :
    specNumberFrom k pairs = [] ↔ pairs = [] := by
  cases pairs with
  | nil => simp [specNumberFrom]
  | cons p rest => simp [specNumberFrom]

/-- The positional fallback loop equals the spec's strict positional
pairing (zip with the candidates dropped up to the running index). -/
lemma positionalFootnotesLoop_spec (cands : List FootnoteCandidate) (ts : List String) :
    ∀ n notes,
      positionalFootnotesLoop cands (List.enumFrom n ts) notes
        = notes ++ specNumberFrom notes.length
            ((ts.zip (cands.drop n)).filter (fun p => is_meaningful_footnote_text p.2.text)) := by
  induction ts with
  | nil => intro n notes; simp [positionalFootnotesLoop, specNumberFrom]
  | cons t ts ih =>
    intro n notes
    rw [show List.enumFrom n (t :: ts) = (n, t) :: List.enumFrom (n + 1) ts from rfl]
    cases hget : cands[n]? with
    | none =>
      have hlen : cands.length ≤ n := by
        by_contra hlt
        rw [List.getElem?_eq_getElem (Nat.lt_of_not_le hlt)] at hget
        cases hget
      rw [positionalFootnotesLoop_miss cands _ t notes hget, ih (n + 1) notes,
        List.drop_eq_nil_of_le hlen, List.drop_eq_nil_of_le (Nat.le_succ_of_le hlen)]
      simp
    | some candidate =>
      have hlt : n < cands.length := by
        by_contra hge
        rw [List.getElem?_eq_none (Nat.le_of_not_lt hge)] at hget
        cases hget
      have hdrop : cands.drop n = candidate :: cands.drop (n + 1) := by
        rw [List.drop_eq_getElem_cons hlt]
        have : cands[n] = candidate := by
          have := List.getElem?_eq_getElem hlt
          rw [hget] at this
          exact (Option.some_inj.mp this).symm
        rw [this]
      rw [hdrop]
      by_cases hm : is_meaningful_footnote_text candidate.text = true
      · rw [positionalFootnotesLoop_accept cands _ t notes hget hm, ih (n + 1) _]
        rw [List.zip_cons_cons, List.filter_cons_of_pos (by simpa using hm)]
        simp only [specNumberFrom, List.length_append, List.length_cons, List.length_nil,
          List.append_assoc]
        rfl
      · rw [positionalFootnotesLoop_discard cands _ t notes hget (by simpa using hm),
          ih (n + 1) notes]
        rw [List.zip_cons_cons, List.filter_cons_of_neg (by simpa using hm)]

/-- C2: each discovered reference target is matched greedily to the
first still-available candidate under the exact-then-stripped
case-insensitive identifier comparison over candidate ids and link
targets, each candidate consumed at most once; exactly when this pass
matches nothing, strict positional pairing is used.  The hypotheses are
the pipeline's invariants: every collected candidate has meaningful
text, and every collected target id contains an alphanumeric
character. -/
theorem C2_matching_and_fallback (chunks : List HtmlChunk) (cands : List FootnoteCandidate)
    (hmean : ∀ c ∈ cands, is_meaningful_footnote_text c.text = true)
    (hkey : ∀ t ∈ collect_footnote_target_ids chunks, normalize_footnote_key t ≠ "") :
    extract_footnotes chunks cands
      = if (specGreedyPairs cands (refTargets chunks) []).isEmpty then
          specPositional cands (refTargets chunks)
        else specNumberFrom 0 (specGreedyPairs cands (refTargets chunks) []) := by
  obtain ⟨hmain, hrefs⟩ := extractFootnotesLoop_spec cands hmean
    (collect_footnote_target_ids chunks) [] [] [] []
    (collect_footnote_target_ids_nodup chunks) (by intro t _ h; cases h) hkey
  unfold extract_footnotes
  rw [hmain, hrefs]
  simp only [List.nil_append, List.length_nil]
  rw [show ((collect_footnote_target_ids chunks).filter
      (fun t => !(strContains (lowerAscii t) "ref"))) = refTargets chunks from rfl]
  by_cases hG : specGreedyPairs cands (refTargets chunks) [] = []
  · rw [hG]
    rw [if_pos (by rfl), if_pos (by rfl)]
    have hpos := positionalFootnotesLoop_spec cands (refTargets chunks) 0 []
    rw [show List.enumFrom 0 (refTargets chunks) = (refTargets chunks).enum from rfl] at hpos
    rw [hpos]
    simp only [List.drop_zero, List.nil_append, List.length_nil]
    rfl
  · obtain ⟨p, rest, hG2⟩ := List.exists_cons_of_ne_nil hG
    rw [hG2]
    rw [if_neg (by simp [specNumberFrom]), if_neg (by simp)]

/-- C2 witness: the pipeline invariants hold on the plain two-reference
body, and the reconciler output there is the greedy pass's numbering. -/
theorem C2_matching_and_fallback_witness :
    extract_footnotes
        [HtmlChunk.anchor "#fn2" "" "<a href=#fn2>2</a>",
         HtmlChunk.anchor "#fn1" "" "<a href=#fn1>1</a>"]
        [⟨["fn1"], [], "First block"⟩, ⟨["fn2"], [], "Second block"⟩]
      = if (specGreedyPairs [⟨["fn1"], [], "First block"⟩, ⟨["fn2"], [], "Second block"⟩]
            (refTargets [HtmlChunk.anchor "#fn2" "" "<a href=#fn2>2</a>",
              HtmlChunk.anchor "#fn1" "" "<a href=#fn1>1</a>"]) []).isEmpty then
          specPositional [⟨["fn1"], [], "First block"⟩, ⟨["fn2"], [], "Second block"⟩]
            (refTargets [HtmlChunk.anchor "#fn2" "" "<a href=#fn2>2</a>",
              HtmlChunk.anchor "#fn1" "" "<a href=#fn1>1</a>"])
        else specNumberFrom 0
          (specGreedyPairs [⟨["fn1"], [], "First block"⟩, ⟨["fn2"], [], "Second block"⟩]
            (refTargets [HtmlChunk.anchor "#fn2" "" "<a href=#fn2>2</a>",
              HtmlChunk.anchor "#fn1" "" "<a href=#fn1>1</a>"]) []) :=
  C2_matching_and_fallback
    [HtmlChunk.anchor "#fn2" "" "<a href=#fn2>2</a>",
     HtmlChunk.anchor "#fn1" "" "<a href=#fn1>1</a>"]
    [⟨["fn1"], [], "First block"⟩, ⟨["fn2"], [], "Second block"⟩]
    (by decide) (by decide)

/-! ## C3/C4: placeholder tokens and the two renderers -/

/-- A normalized-body piece after reference replacement: plain markup
text, or a `[[FN:n]]` placeholder token carrying the resolved number. -/
inductive Piece where
  | text (s : String)
  | token (n : Nat)
deriving Repr, DecidableEq

/-- Whether a piece is a placeholder token. -/
def Piece.isToken : Piece → Bool
  | .token _ => true
  | .text _ => false

/-- `HashMap::insert` on an association list: overwrites an existing
binding, appends otherwise. -/
def insertOverwrite (m : List (String × Nat)) (k : String) (v : Nat) : List (String × Nat) :=
  if m.any (fun e => e.1 == k) then m.map (fun e => if e.1 == k then (k, v) else e)
  else m ++ [(k, v)]

/-- `HashMap::entry(..).or_insert(..)`: inserts only when the key is
absent. -/
def orInsert (m : List (String × Nat)) (k : String) (v : Nat) : List (String × Nat) :=
  if m.any (fun e => e.1 == k) then m else m ++ [(k, v)]

/-- The lookup table `by_id` built by
`substack.rs::replace_footnote_refs_with_tokens`: the lowercased note id
maps to the note number (overwriting), and the nonempty normalized key
maps to it when not already bound. -/
def buildById (footnotes : List FootnoteEntry) : List (String × Nat) :=
  footnotes.foldl (fun m note =>
    if normalize_footnote_key note.id == "" then
      insertOverwrite m (lowerAscii note.id) note.number
    else
      orInsert (insertOverwrite m (lowerAscii note.id) note.number)
        (normalize_footnote_key note.id) note.number) []

/-- Association-list lookup (`HashMap::get`). -/
def lookupById (m : List (String × Nat)) (k : String) : Option Nat :=
  (m.find? (fun e => e.1 == k)).map (fun e => e.2)

/-- The resolution chain of `replace_footnote_refs_with_tokens` for one
anchor: fragment id present, footnote-looking, then bound by lowercased
id or by nonempty normalized key. -/
def footnote_ref_resolution (byId : List (String × Nat)) (href : String) : Option Nat :=
  match extract_fragment_id_from_href href with
  | none => none
  | some target_id =>
    if !looks_like_footnote_id target_id then none
    else
      match lookupById byId (lowerAscii target_id) with
      | some n => some n
      | none =>
        if normalize_footnote_key target_id == "" then none
        else lookupById byId (normalize_footnote_key target_id)

/-- One anchor's replacement: a resolved anchor becomes a placeholder
token, an unresolved one keeps its original markup. -/
def resolveRefChunk (byId : List (String × Nat)) : HtmlChunk → Piece
  | .text s => .text s
  | .anchor href _ raw =>
    match footnote_ref_resolution byId href with
    | some n => .token n
    | none => .text raw

/-- Embeds `substack.rs::replace_footnote_refs_with_tokens` at chunk
granularity. -/
def replace_footnote_refs_with_tokens (chunks : List HtmlChunk)
    (footnotes : List FootnoteEntry) : List Piece :=
  chunks.map (resolveRefChunk (buildById footnotes))

/-- The per-note `String::replace` pass of both renderers, at piece
granularity: a token whose number belongs to some footnote is replaced
by that number's rendering. -/
def replaceTokens (footnotes : List FootnoteEntry) (render : Nat → String) (p : Piece) : Piece :=
  match p with
  | .token n => if footnotes.any (fun note => note.number == n) then .text (render n) else p
  | .text s => .text s

/-- A markup-text transformation (block-break hints, anchor stripping,
html2text, sanitization, newline normalization) applied to the text
pieces only; placeholder tokens pass through such string passes
unchanged. -/
def textPassOnPieces (pass : String → String) (pieces : List Piece) : List Piece :=
  pieces.map fun
    | .text s => .text (pass s)
    | .token n => .token n

/-- Embeds `substack.rs::inject_text_footnotes`: every `[[FN:n]]` with
`n` a footnote number becomes `[n]`, and a trailing `Footnotes` block is
appended when footnotes exist. -/
def inject_text_footnotes (pieces : List Piece) (footnotes : List FootnoteEntry) : List Piece :=
  if footnotes.isEmpty then
    pieces.map (replaceTokens footnotes (fun n => "[" ++ toString n ++ "]"))
  else
    pieces.map (replaceTokens footnotes (fun n => "[" ++ toString n ++ "]"))
      ++ (Piece.text "\n\nFootnotes\n"
        :: footnotes.map (fun note =>
            Piece.text ("[" ++ toString note.number ++ "] " ++ note.text ++ "\n")))

/-- Embeds `substack.rs::render_plain_text`: the flat-text pre-passes
run over the body with markers, then the markers are injected. -/
def render_plain_text (pass : String → String) (pieces : List Piece)
    (footnotes : List FootnoteEntry) : List Piece :=
  inject_text_footnotes (textPassOnPieces pass pieces) footnotes

/-- The superscript cross-reference marker of `build_epub_body`. -/
def footnoteRefMarker (n : Nat) : String :=
  "<a class=\"footnote-ref\" href=\"#footnote-" ++ toString n
    ++ "\" id=\"footnote-ref-" ++ toString n
    ++ "\" epub:type=\"noteref\"><sup class=\"footnote-ref-num\">" ++ toString n ++ "</sup></a>"

/-- Embeds `substack.rs::contains_block_markup` over the pieces. -/
def contains_block_markup (pieces : List Piece) : Bool :=
  pieces.any fun
    | .text s => strContains (lowerAscii s) "<p" || strContains (lowerAscii s) "<div"
        || strContains (lowerAscii s) "<section" || strContains (lowerAscii s) "<blockquote"
    | .token _ => false

/-- `HashMap::insert` keyed by footnote number (the `indexed` map of
`build_epub_body`). -/
def insertIndexed (m : List (Nat × FootnoteEntry)) (k : Nat) (v : FootnoteEntry) :
    List (Nat × FootnoteEntry) :=
  if m.any (fun e => e.1 == k) then m.map (fun e => if e.1 == k then (k, v) else e)
  else m ++ [(k, v)]

/-- Lookup in the number-indexed map. -/
def lookupIndexed (m : List (Nat × FootnoteEntry)) (k : Nat) : Option FootnoteEntry :=
  (m.find? (fun e => e.1 == k)).map (fun e => e.2)

/-- One rendered footnote list entry of `build_epub_body`. -/
def footnoteListItem (note : FootnoteEntry) : String :=
  "\n        <li id=\"footnote-" ++ toString note.number ++ "\">"
    ++ escape_xml note.text
    ++ " <a class=\"footnote-backref\" href=\"#footnote-ref-" ++ toString note.number
    ++ "\" epub:type=\"backlink\">[back]</a></li>"

/-- Embeds `substack.rs::build_epub_body`: the body is sanitized, the
markers become superscript cross-reference anchors, a paragraph fallback
replaces block-free content, and a trailing footnotes section is
appended when footnotes exist. -/
def build_epub_body (sanitize : String → String) (fallbackRender : List Piece → List String)
    (pieces : List Piece) (footnotes : List FootnoteEntry) : List Piece :=
  let body0 := (textPassOnPieces sanitize pieces).map (replaceTokens footnotes footnoteRefMarker)
  let body1 := if contains_block_markup body0 then body0
    else (fallbackRender body0).map Piece.text
  if footnotes.isEmpty then body1
  else
    body1 ++ (Piece.text "\n    <section class=\"footnotes\">\n      <h2>Footnotes</h2>\n      <ol>"
      :: (((List.range footnotes.length).filterMap (fun k =>
            (lookupIndexed (footnotes.foldl (fun m note => insertIndexed m note.number note) [])
                (k + 1)).map (fun note => Piece.text (footnoteListItem note))))
        ++ [Piece.text "\n      </ol>\n    </section>"]))

lemma insertOverwrite_forall {P : Nat → Prop} {m : List (String × Nat)} {k : String} {v : Nat}
    (hm : ∀ e ∈ m, P e.2) (hv : P v) : ∀ e ∈ insertOverwrite m k v, P e.2 := by
  unfold insertOverwrite
  by_cases hc : m.any (fun e => e.1 == k)
  · rw [if_pos hc]
    intro e he
    obtain ⟨x, hx, hfx⟩ := List.mem_map.mp he
    by_cases hk : x.1 == k
    · rw [if_pos hk] at hfx
      rw [← hfx]
      exact hv
    · rw [if_neg hk] at hfx
      rw [← hfx]
      exact hm x hx
  · rw [if_neg hc]
    intro e he
    rcases List.mem_append.mp he with he | he
    · exact hm e he
    · simp only [List.mem_singleton] at he
      rw [he]
      exact hv

lemma orInsert_forall {P : Nat → Prop} {m : List (String × Nat)} {k : String} {v : Nat}
    (hm : ∀ e ∈ m, P e.2) (hv : P v) : ∀ e ∈ orInsert m k v, P e.2 := by
  unfold orInsert
  by_cases hc : m.any (fun e => e.1 == k)
  · rw [if_pos hc]; exact hm
  · rw [if_neg hc]
    intro e he
    rcases List.mem_append.mp he with he | he
    · exact hm e he
    · simp only [List.mem_singleton] at he
      rw [he]
      exact hv

lemma buildById_step_forall {P : Nat → Prop} (l : List FootnoteEntry)
    (hl : ∀ note ∈ l, P note.number) :
    ∀ m : List (String × Nat), (∀ e ∈ m, P e.2) →
      ∀ e ∈ l.foldl (fun m note =>
          if normalize_footnote_key note.id == "" then
            insertOverwrite m (lowerAscii note.id) note.number
          else
            orInsert (insertOverwrite m (lowerAscii note.id) note.number)
              (normalize_footnote_key note.id) note.number) m, P e.2 := by
  induction l with
  | nil => intro m hm; exact hm
  | cons note rest ih =>
    intro m hm
    rw [List.foldl_cons]
    have hnote : P note.number := hl note (List.mem_cons_self note rest)
    have hl2 : ∀ x ∈ rest, P x.number := fun x hx => hl x (List.mem_cons_of_mem note hx)
    by_cases hk : normalize_footnote_key note.id == ""
    · rw [if_pos hk]
      exact ih hl2 _ (insertOverwrite_forall hm hnote)
    · rw [if_neg hk]
      exact ih hl2 _ (orInsert_forall (insertOverwrite_forall hm hnote) hnote)

/-- Every number bound in the lookup table is a footnote number. -/
lemma buildById_numbers (footnotes : List FootnoteEntry) :
    ∀ e ∈ buildById footnotes, e.2 ∈ footnotes.map (fun n => n.number) := by
  unfold buildById
  exact buildById_step_forall footnotes
    (fun note hn => List.mem_map.mpr ⟨note, hn, rfl⟩) [] (by intro e he; cases he)

lemma lookupById_mem {m : List (String × Nat)} {k : String} {n : Nat}
    (h : lookupById m k = some n) : ∃ e ∈ m, e.2 = n := by
  unfold lookupById at h
  cases hf : m.find? (fun e => e.1 == k) with
  | none => rw [hf] at h; cases h
  | some e =>
    rw [hf] at h
    simp only [Option.map] at h
    exact ⟨e, List.mem_of_find?_eq_some hf, Option.some_inj.mp h⟩

/-- Any number a placeholder token can carry comes from the footnote
list. -/
lemma footnote_ref_resolution_mem {footnotes : List FootnoteEntry} {href : String} {n : Nat}
    (h : footnote_ref_resolution (buildById footnotes) href = some n) :
    n ∈ footnotes.map (fun note => note.number) := by
  unfold footnote_ref_resolution at h
  cases hx : extract_fragment_id_from_href href with
  | none => rw [hx] at h; cases h
  | some target_id =>
    rw [hx] at h
    dsimp only at h
    by_cases hl : !looks_like_footnote_id target_id
    · rw [if_pos hl] at h; cases h
    · rw [if_neg hl] at h
      cases hlook : lookupById (buildById footnotes) (lowerAscii target_id) with
      | some v =>
        rw [hlook] at h
        dsimp only at h
        obtain ⟨e, he, hev⟩ := lookupById_mem hlook
        cases h
        exact hev ▸ buildById_numbers footnotes e he
      | none =>
        rw [hlook] at h
        dsimp only at h
        by_cases hk : normalize_footnote_key target_id == ""
        · rw [if_pos hk] at h; cases h
        · rw [if_neg hk] at h
          obtain ⟨e, he, hev⟩ := lookupById_mem h
          exact hev ▸ buildById_numbers footnotes e he

lemma replaceTokens_not_token {footnotes : List FootnoteEntry} {render : Nat → String}
    {p : Piece} (h : ∀ n, p = Piece.token n → n ∈ footnotes.map (fun note => note.number)) :
    (replaceTokens footnotes render p).isToken = false := by
  cases p with
  | text s => rfl
  | token n =>
    have hn := h n rfl
    have hany : footnotes.any (fun note => note.number == n) = true :=
      List.any_eq_true.mpr (by
        obtain ⟨note, hmem, hval⟩ := List.mem_map.mp hn
        exact ⟨note, hmem, by rw [hval]; exact beq_self_eq_true n⟩)
    unfold replaceTokens
    dsimp only
    rw [if_pos hany]
    rfl

/-- Every token produced by reference replacement carries a footnote
number, and a text pass keeps that property. -/
lemma tokens_of_pipeline (chunks : List HtmlChunk) (footnotes : List FootnoteEntry)
    (pass : String → String) :
    ∀ p ∈ textPassOnPieces pass (replace_footnote_refs_with_tokens chunks footnotes),
      ∀ n, p = Piece.token n → n ∈ footnotes.map (fun note => note.number) := by
  intro p hp n hpn
  obtain ⟨q, hq, hqp⟩ := List.mem_map.mp hp
  obtain ⟨c, hc, hcq⟩ := List.mem_map.mp hq
  subst hpn
  cases q with
  | text s => cases hqp
  | token m =>
    have hmn : m = n := by
      simpa using hqp
    subst hmn
    cases c with
    | text s => simp [resolveRefChunk] at hcq
    | anchor href className raw =>
      unfold resolveRefChunk at hcq
      dsimp only at hcq
      cases hres : footnote_ref_resolution (buildById footnotes) href with
      | none => rw [hres] at hcq; exact absurd hcq (by simp)
      | some v =>
        rw [hres] at hcq
        have hvm : v = m := by simpa using hcq
        subst hvm
        exact footnote_ref_resolution_mem hres

/-- C3: every `[[FN:n]]` placeholder inserted during reconciliation is
replaced in both renderers — `[n]` in the flat-text output, a
superscript cross-reference anchor in the markup output — so no
placeholder token survives in either final rendering, for every body,
footnote list, and behaviour of the external text passes. -/
theorem C3_no_placeholder_survives (chunks : List HtmlChunk) (footnotes : List FootnoteEntry)
    (pass sanitize : String → String) (fallbackRender : List Piece → List String) :
    ((render_plain_text pass (replace_footnote_refs_with_tokens chunks footnotes)
        footnotes).all (fun p => !p.isToken)) = true
    ∧ ((build_epub_body sanitize fallbackRender
        (replace_footnote_refs_with_tokens chunks footnotes) footnotes).all
        (fun p => !p.isToken)) = true := by
  have hmapped : ∀ (f : String → String),
      ∀ p ∈ (textPassOnPieces f (replace_footnote_refs_with_tokens chunks footnotes)).map
        (replaceTokens footnotes (fun n => "[" ++ toString n ++ "]")), (!p.isToken) = true := by
    intro f p hp
    obtain ⟨q, hq, hqp⟩ := List.mem_map.mp hp
    rw [← hqp]
    rw [Bool.not_eq_true']
    exact replaceTokens_not_token (tokens_of_pipeline chunks footnotes f q hq)
  have hmarker : ∀ p ∈ (textPassOnPieces sanitize
      (replace_footnote_refs_with_tokens chunks footnotes)).map
        (replaceTokens footnotes footnoteRefMarker), (!p.isToken) = true := by
    intro p hp
    obtain ⟨q, hq, hqp⟩ := List.mem_map.mp hp
    rw [← hqp, Bool.not_eq_true']
    exact replaceTokens_not_token (tokens_of_pipeline chunks footnotes sanitize q hq)
  constructor
  · unfold render_plain_text inject_text_footnotes
    by_cases he : footnotes.isEmpty
    · rw [if_pos he]
      exact List.all_eq_true.mpr (hmapped pass)
    · rw [if_neg he]
      refine List.all_eq_true.mpr ?_
      intro p hp
      rcases List.mem_append.mp hp with hp | hp
      · exact hmapped pass p hp
      · rcases List.mem_cons.mp hp with hp | hp
        · rw [hp]; rfl
        · obtain ⟨note, _, hnp⟩ := List.mem_map.mp hp
          rw [← hnp]; rfl
  · unfold build_epub_body
    have hbody1 : ∀ p ∈ (if contains_block_markup
        ((textPassOnPieces sanitize (replace_footnote_refs_with_tokens chunks footnotes)).map
          (replaceTokens footnotes footnoteRefMarker)) then
        ((textPassOnPieces sanitize (replace_footnote_refs_with_tokens chunks footnotes)).map
          (replaceTokens footnotes footnoteRefMarker))
      else (fallbackRender
        ((textPassOnPieces sanitize (replace_footnote_refs_with_tokens chunks footnotes)).map
          (replaceTokens footnotes footnoteRefMarker))).map Piece.text),
        (!p.isToken) = true := by
      intro p hp
      by_cases hc : contains_block_markup
          ((textPassOnPieces sanitize (replace_footnote_refs_with_tokens chunks footnotes)).map
            (replaceTokens footnotes footnoteRefMarker))
      · rw [if_pos hc] at hp
        exact hmarker p hp
      · rw [if_neg hc] at hp
        obtain ⟨s, _, hsp⟩ := List.mem_map.mp hp
        rw [← hsp]; rfl
    by_cases he : footnotes.isEmpty
    · rw [if_pos he]
      exact List.all_eq_true.mpr hbody1
    · rw [if_neg he]
      refine List.all_eq_true.mpr ?_
      intro p hp
      rcases List.mem_append.mp hp with hp | hp
      · exact hbody1 p hp
      · rcases List.mem_cons.mp hp with hp | hp
        · rw [hp]; rfl
        · rcases List.mem_append.mp hp with hp | hp
          · obtain ⟨k, hk, hkp⟩ := List.mem_filterMap.mp hp
            obtain ⟨note, hn, hnp⟩ := Option.map_eq_some'.mp hkp
            rw [← hnp]; rfl
          · simp only [List.mem_singleton] at hp
            rw [hp]; rfl

/-- C4: an in-body reference anchor whose fragment target never resolves
to a footnote number keeps its original markup verbatim; a token arises
only from a successful resolution; and a body where one reference
resolves and another does not is rendered with the resolved one replaced
and the other untouched. -/
theorem C4_unresolved_refs_untouched :
    (∀ footnotes href className raw,
      footnote_ref_resolution (buildById footnotes) href = none →
        resolveRefChunk (buildById footnotes) (HtmlChunk.anchor href className raw)
          = Piece.text raw)
    ∧ (∀ footnotes href className raw n,
      resolveRefChunk (buildById footnotes) (HtmlChunk.anchor href className raw)
          = Piece.token n →
        footnote_ref_resolution (buildById footnotes) href = some n)
    ∧ (replace_footnote_refs_with_tokens
        [HtmlChunk.anchor "#fn1" "" "<a href=#fn1>1</a>",
         HtmlChunk.anchor "#fn77" "" "<a href=#fn77>77</a>"]
        [⟨"fn1", 1, "Note one"⟩]
      = [Piece.token 1, Piece.text "<a href=#fn77>77</a>"]) := by
  refine ⟨?_, ?_, by decide⟩
  · intro footnotes href className raw h
    unfold resolveRefChunk
    dsimp only
    rw [h]
  · intro footnotes href className raw n h
    unfold resolveRefChunk at h
    dsimp only at h
    cases hres : footnote_ref_resolution (buildById footnotes) href with
    | none => rw [hres] at h; exact absurd h (by simp)
    | some v =>
      rw [hres] at h
      have hvn : v = n := by simpa using h
      rw [← hvn]

/-- C4 witness: the unresolved-anchor conjunct applied to a body whose
only footnote is `fn1` and an anchor pointing at `fn77`. -/
theorem C4_unresolved_refs_untouched_witness :
    resolveRefChunk (buildById [⟨"fn1", 1, "Note one"⟩])
        (HtmlChunk.anchor "#fn77" "" "<a href=#fn77>77</a>")
      = Piece.text "<a href=#fn77>77</a>" :=
  C4_unresolved_refs_untouched.1 [⟨"fn1", 1, "Note one"⟩] "#fn77" ""
    "<a href=#fn77>77</a>" (by decide)

/-! ## C5: EPUB container layout (`export.rs::write_epub`) -/

/-- Zip entry compression method: `Stored` for the mimetype entry,
`Deflated` elsewhere. -/
inductive Compression where
  | stored
  | deflated
deriving Repr, DecidableEq

/-- Embeds `export.rs::CoverAsset` (image bytes as opaque numbers). -/
structure CoverAsset where
  bytes : List Nat
  media_type : String
  extension : String
deriving Repr, DecidableEq

/-- The parts of `models.rs::PostContent` that `write_epub` consumes. -/
structure PostContentM where
  title : String
  epub_body : String
deriving Repr, DecidableEq

/-- The archive structure `write_epub` produces: zip entries in write
order with their compression, manifest item markup, spine itemrefs in
order, and navigation links in reading order. -/
structure EpubLayout where
  entries : List (String × Compression)
  manifest : List String
  spine : List String
  navLinks : List String
deriving Repr, DecidableEq

/-- Positional chapter itemref markup. -/
def chapterItemref (k : Nat) : String :=
  "<itemref idref=\"chapter-" ++ toString k ++ "\"/>"

/-- Positional chapter file path. -/
def chapterFileName (k : Nat) : String :=
  "OEBPS/text/chapter-" ++ toString k ++ ".xhtml"

/-- Positional chapter manifest item markup. -/
def chapterManifestItem (k : Nat) : String :=
  "<item id=\"chapter-" ++ toString k ++ "\" href=\"text/chapter-" ++ toString k
    ++ ".xhtml\" media-type=\"application/xhtml+xml\"/>"

/-- The cover-page spine itemref. -/
def coverItemref : String := "<itemref idref=\"cover-page\"/>"

/-- Embeds `export.rs::write_epub` as the archive structure it writes:
the uncompressed `mimetype` entry first, then the container pointer, the
optional cover image, the package document, the navigation document, the
optional cover page, and one chapter document per post with positional
ids `chapter-1`, `chapter-2`, ... in final spine order; the spine places
the cover page (when present) before all chapters. -/
def write_epub (posts : List PostContentM) (cover : Option CoverAsset) : EpubLayout :=
  { entries :=
      [("mimetype", Compression.stored), ("META-INF/container.xml", Compression.deflated)]
      ++ (match cover with
          | some c => [("OEBPS/images/cover." ++ c.extension, Compression.deflated)]
          | none => [])
      ++ [("OEBPS/content.opf", Compression.deflated), ("OEBPS/nav.xhtml", Compression.deflated)]
      ++ (match cover with
          | some _ => [("OEBPS/text/cover.xhtml", Compression.deflated)]
          | none => [])
      ++ (List.range posts.length).map (fun i => (chapterFileName (i + 1), Compression.deflated))
    manifest :=
      "<item id=\"nav\" href=\"nav.xhtml\" media-type=\"application/xhtml+xml\" properties=\"nav\"/>"
      :: ((match cover with
          | some c =>
            ["<item id=\"cover-image\" href=\"images/cover." ++ c.extension
              ++ "\" media-type=\"" ++ c.media_type ++ "\" properties=\"cover-image\"/>",
             "<item id=\"cover-page\" href=\"text/cover.xhtml\" media-type=\"application/xhtml+xml\"/>"]
          | none => [])
        ++ (List.range posts.length).map (fun i => chapterManifestItem (i + 1)))
    spine :=
      (match cover with
        | some _ => [coverItemref]
        | none => [])
      ++ (List.range posts.length).map (fun i => chapterItemref (i + 1))
    navLinks :=
      (match cover with
        | some _ => ["<li><a href=\"text/cover.xhtml\">Cover</a></li>"]
        | none => [])
      ++ posts.map (fun post =>
          "<li><a>" ++ escape_xml post.title ++ "</a></li>") }

/-- C5: the archive starts with the uncompressed `mimetype` entry, the
spine holds one itemref per chapter plus the cover page exactly when a
cover is present, the cover page is first in the spine, and chapter ids
and filenames are positional `chapter-1, chapter-2, ...` in final spine
order. -/
theorem C5_epub_structure (posts : List PostContentM) (cover : Option CoverAsset) :
    (write_epub posts cover).entries.head? = some ("mimetype", Compression.stored)
    ∧ (write_epub posts cover).spine.length
        = posts.length + (if cover.isSome then 1 else 0)
    ∧ (cover.isSome → (write_epub posts cover).spine.head? = some coverItemref)
    ∧ (write_epub posts cover).spine.drop (if cover.isSome then 1 else 0)
        = (List.range posts.length).map (fun i => chapterItemref (i + 1))
    ∧ (write_epub posts cover).entries.drop (4 + (if cover.isSome then 2 else 0))
        = (List.range posts.length).map
            (fun i => (chapterFileName (i + 1), Compression.deflated)) := by
  cases cover with
  | none =>
    refine ⟨rfl, ?_, ?_, ?_, ?_⟩
    · simp [write_epub, Nat.add_comm]
    · intro h; cases h
    · simp [write_epub]
    · simp [write_epub]
  | some c =>
    refine ⟨rfl, ?_, fun _ => rfl, ?_, ?_⟩
    · simp [write_epub, Nat.add_comm]
    · simp [write_epub]
    · simp [write_epub]

/-- C5 witness: the cover-first conjunct at a concrete one-post book
with a cover. -/
theorem C5_epub_structure_witness :
    (write_epub [⟨"Post", "<p>Body</p>"⟩]
        (some ⟨[1, 2], "image/png", "png"⟩)).spine.head? = some coverItemref :=
  C5_epub_structure [⟨"Post", "<p>Body</p>"⟩] (some ⟨[1, 2], "image/png", "png"⟩)
    |>.2.2.1 (by decide)

/-! ## C7/C8/C10: post ordering (`export.rs`) -/

/-- Embeds `models.rs::SortDirection`. -/
inductive SortDirection where
  | desc
  | asc
deriving Repr, DecidableEq

/-- Embeds `models.rs::OrderMode`. -/
inductive OrderMode where
  | date
  | manual
deriving Repr, DecidableEq

/-- The fields of `models.rs::PostSummary` the selector/orderer reads. -/
structure PostSummaryM where
  id : String
  title : String
  published_at : String
deriving Repr, DecidableEq

/-- Character comparison by Unicode scalar value (Rust `char` order). -/
def charCmp (a b : Char) : Ordering := compare a.toNat b.toNat

/-- Lexicographic character-list comparison (Rust `str::cmp`). -/
def listCmp : List Char → List Char → Ordering
  | [], [] => .eq
  | [], _ :: _ => .lt
  | _ :: _, [] => .gt
  | a :: ar, b :: br => match charCmp a b with
    | .eq => listCmp ar br
    | o => o

/-- Rust `String::cmp`. -/
def strCmp (a b : String) : Ordering := listCmp a.data b.data

/-- The timestamp key of `export.rs::compare_post_dates`:
`parse_datetime_flexible(..).map(timestamp_millis).unwrap_or(0)`, the
chrono parser supplied as an oracle. -/
def post_ts (parse : String → Option Int) (p : PostSummaryM) : Int :=
  (parse p.published_at).getD 0

/-- The direction-dependent primary comparison of `compare_post_dates`. -/
def primaryCmp (parse : String → Option Int) (dir : SortDirection)
    (a b : PostSummaryM) : Ordering :=
  match dir with
  | .desc => compare (post_ts parse b) (post_ts parse a)
  | .asc => compare (post_ts parse a) (post_ts parse b)

/-- Embeds `export.rs::compare_post_dates`, with the chrono parser and
Rust's Unicode `str::to_lowercase` as oracles. -/
def compare_post_dates (parse : String → Option Int) (lower : String → String)
    (a b : PostSummaryM) (dir : SortDirection) : Ordering :=
  if primaryCmp parse dir a b = .eq then strCmp (lower a.title) (lower b.title)
  else primaryCmp parse dir a b

lemma intCmp_swap (a b : Int) : compare a b = (compare b a).swap := by
  rcases lt_trichotomy a b with h | h | h
  · rw [compare_lt_iff_lt.mpr h, compare_gt_iff_gt.mpr h]
    rfl
  · rw [compare_eq_iff_eq.mpr h, compare_eq_iff_eq.mpr h.symm]
    rfl
  · rw [compare_gt_iff_gt.mpr h, compare_lt_iff_lt.mpr h]
    rfl

lemma primaryCmp_eq_iff (parse : String → Option Int) (dir : SortDirection)
    (a b : PostSummaryM) :
    primaryCmp parse dir a b = .eq ↔ post_ts parse a = post_ts parse b := by
  cases dir with
  | desc => exact compare_eq_iff_eq.trans eq_comm
  | asc => exact compare_eq_iff_eq

lemma primaryCmp_swap (parse : String → Option Int) (dir : SortDirection)
    (a b : PostSummaryM) :
    primaryCmp parse dir a b = (primaryCmp parse dir b a).swap := by
  cases dir with
  | desc => exact intCmp_swap _ _
  | asc => exact intCmp_swap _ _

/-- C7: the by-date comparator ties exactly when the parsed timestamps
coincide, in which case both directions fall back to the identical
case-insensitive title comparison; when the timestamps differ, ascending
order is the timestamp comparison and descending order is its exact
reversal; an unparsable timestamp compares as the epoch origin 0. -/
theorem C7_compare_post_dates (parse : String → Option Int) (lower : String → String)
    (a b : PostSummaryM) :
    (post_ts parse a = post_ts parse b →
      compare_post_dates parse lower a b SortDirection.asc
          = strCmp (lower a.title) (lower b.title)
        ∧ compare_post_dates parse lower a b SortDirection.desc
          = strCmp (lower a.title) (lower b.title))
    ∧ (post_ts parse a ≠ post_ts parse b →
      compare_post_dates parse lower a b SortDirection.asc
          = compare (post_ts parse a) (post_ts parse b)
        ∧ compare_post_dates parse lower a b SortDirection.desc
          = (compare_post_dates parse lower a b SortDirection.asc).swap)
    ∧ (parse a.published_at = none → post_ts parse a = 0) := by
  refine ⟨?_, ?_, ?_⟩
  · intro hts
    constructor
    · unfold compare_post_dates
      rw [if_pos ((primaryCmp_eq_iff parse .asc a b).mpr hts)]
    · unfold compare_post_dates
      rw [if_pos ((primaryCmp_eq_iff parse .desc a b).mpr hts)]
  · intro hts
    have hasc : primaryCmp parse .asc a b ≠ .eq := by
      intro hc
      exact hts ((primaryCmp_eq_iff parse .asc a b).mp hc)
    have hdesc : primaryCmp parse .desc a b ≠ .eq := by
      intro hc
      exact hts ((primaryCmp_eq_iff parse .desc a b).mp hc)
    constructor
    · unfold compare_post_dates
      rw [if_neg hasc]
      rfl
    · unfold compare_post_dates
      rw [if_neg hasc, if_neg hdesc]
      show compare (post_ts parse b) (post_ts parse a)
        = (compare (post_ts parse a) (post_ts parse b)).swap
      exact intCmp_swap _ _
  · intro hnone
    unfold post_ts
    rw [hnone]
    rfl

/-- C7 witness: two posts with unparsable timestamps tie and fall back
to the title comparison in both directions. -/
theorem C7_compare_post_dates_witness :
    compare_post_dates (fun _ => none) (fun s => s)
        ⟨"p1", "Alpha", "bad"⟩ ⟨"p2", "Beta", "also bad"⟩ SortDirection.asc
      = strCmp "Alpha" "Beta"
    ∧ compare_post_dates (fun _ => none) (fun s => s)
        ⟨"p1", "Alpha", "bad"⟩ ⟨"p2", "Beta", "also bad"⟩ SortDirection.desc
      = strCmp "Alpha" "Beta" :=
  (C7_compare_post_dates (fun _ => none) (fun s => s)
    ⟨"p1", "Alpha", "bad"⟩ ⟨"p2", "Beta", "also bad"⟩).1 rfl

/-- The comparator laws ordering proofs need: swap-antisymmetry and the
four `eq`/`lt` transitivity facts. -/
structure IsLawfulCmp {α : Type} (c : α → α → Ordering) : Prop where
  swap_eq : ∀ a b, c a b = (c b a).swap
  eq_trans : ∀ a b d, c a b = .eq → c b d = .eq → c a d = .eq
  eq_lt_trans : ∀ a b d, c a b = .eq → c b d = .lt → c a d = .lt
  lt_eq_trans : ∀ a b d, c a b = .lt → c b d = .eq → c a d = .lt
  lt_trans : ∀ a b d, c a b = .lt → c b d = .lt → c a d = .lt

lemma intCompare_lawful : IsLawfulCmp (fun a b : Int => compare a b) where
  swap_eq := intCmp_swap
  eq_trans a b d h1 h2 :=
    compare_eq_iff_eq.mpr ((compare_eq_iff_eq.mp h1).trans (compare_eq_iff_eq.mp h2))
  eq_lt_trans a b d h1 h2 := by
    rw [compare_eq_iff_eq.mp h1]
    exact h2
  lt_eq_trans a b d h1 h2 := by
    rw [← compare_eq_iff_eq.mp h2]
    exact h1
  lt_trans a b d h1 h2 :=
    compare_lt_iff_lt.mpr ((compare_lt_iff_lt.mp h1).trans (compare_lt_iff_lt.mp h2))

lemma IsLawfulCmp.comap {α β : Type} {c : β → β → Ordering} (h : IsLawfulCmp c)
    (f : α → β) : IsLawfulCmp (fun a b => c (f a) (f b)) where
  swap_eq a b := h.swap_eq (f a) (f b)
  eq_trans a b d := h.eq_trans (f a) (f b) (f d)
  eq_lt_trans a b d := h.eq_lt_trans (f a) (f b) (f d)
  lt_eq_trans a b d := h.lt_eq_trans (f a) (f b) (f d)
  lt_trans a b d := h.lt_trans (f a) (f b) (f d)

lemma IsLawfulCmp.flipped {α : Type} {c : α → α → Ordering} (h : IsLawfulCmp c) :
    IsLawfulCmp (fun a b => c b a) where
  swap_eq a b := h.swap_eq b a
  eq_trans a b d h1 h2 := h.eq_trans d b a h2 h1
  eq_lt_trans a b d h1 h2 := h.lt_eq_trans d b a h2 h1
  lt_eq_trans a b d h1 h2 := h.eq_lt_trans d b a h2 h1
  lt_trans a b d h1 h2 := h.lt_trans d b a h2 h1

lemma primaryCmp_lawful (parse : String → Option Int) (dir : SortDirection) :
    IsLawfulCmp (fun a b => primaryCmp parse dir a b) := by
  cases dir with
  | desc => exact (intCompare_lawful.comap (post_ts parse)).flipped
  | asc => exact intCompare_lawful.comap (post_ts parse)

lemma charCmp_eq_iff (a b : Char) : charCmp a b = .eq ↔ a = b := by
  unfold charCmp
  rw [compare_eq_iff_eq]
  constructor
  · intro h
    exact Char.eq_of_val_eq (UInt32.toNat.inj h)
  · intro h
    rw [h]

lemma charCmp_lawful : IsLawfulCmp charCmp := by
  have base : IsLawfulCmp (fun a b : Nat => compare a b) := {
    swap_eq := fun a b => by
      rcases lt_trichotomy a b with h | h | h
      · rw [compare_lt_iff_lt.mpr h, compare_gt_iff_gt.mpr h]; rfl
      · rw [compare_eq_iff_eq.mpr h, compare_eq_iff_eq.mpr h.symm]; rfl
      · rw [compare_gt_iff_gt.mpr h, compare_lt_iff_lt.mpr h]; rfl
    eq_trans := fun a b d h1 h2 =>
      compare_eq_iff_eq.mpr ((compare_eq_iff_eq.mp h1).trans (compare_eq_iff_eq.mp h2))
    eq_lt_trans := fun a b d h1 h2 => by rw [compare_eq_iff_eq.mp h1]; exact h2
    lt_eq_trans := fun a b d h1 h2 => by rw [← compare_eq_iff_eq.mp h2]; exact h1
    lt_trans := fun a b d h1 h2 =>
      compare_lt_iff_lt.mpr ((compare_lt_iff_lt.mp h1).trans (compare_lt_iff_lt.mp h2)) }
  exact base.comap Char.toNat

lemma listCmp_eq_iff : ∀ x y : List Char, listCmp x y = .eq ↔ x = y := by
  intro x
  induction x with
  | nil =>
    intro y
    cases y with
    | nil => simp [listCmp]
    | cons b br => simp [listCmp]
  | cons a ar ih =>
    intro y
    cases y with
    | nil => simp [listCmp]
    | cons b br =>
      show (match charCmp a b with
        | .eq => listCmp ar br
        | o => o) = .eq ↔ a :: ar = b :: br
      cases hab : charCmp a b with
      | eq =>
        have hchar : a = b := (charCmp_eq_iff a b).mp hab
        simp [hchar, ih br]
      | lt =>
        have : a ≠ b := fun hc => by rw [hc, (charCmp_eq_iff b b).mpr rfl] at hab; cases hab
        simp [this]
      | gt =>
        have : a ≠ b := fun hc => by rw [hc, (charCmp_eq_iff b b).mpr rfl] at hab; cases hab
        simp [this]

lemma listCmp_swap : ∀ x y : List Char, listCmp x y = (listCmp y x).swap := by
  intro x
  induction x with
  | nil =>
    intro y
    cases y with
    | nil => rfl
    | cons b br => rfl
  | cons a ar ih =>
    intro y
    cases y with
    | nil => rfl
    | cons b br =>
      show (match charCmp a b with
        | .eq => listCmp ar br
        | o => o)
        = (match charCmp b a with
          | .eq => listCmp br ar
          | o => o).swap
      rw [charCmp_lawful.swap_eq a b]
      cases charCmp b a with
      | eq => exact ih br
      | lt => rfl
      | gt => rfl

lemma listCmp_lt_trans : ∀ x y z : List Char,
    listCmp x y = .lt → listCmp y z = .lt → listCmp x z = .lt := by
  intro x
  induction x with
  | nil =>
    intro y z h1 h2
    cases z with
    | nil =>
      cases y with
      | nil => cases h1
      | cons b br => cases h2
    | cons c cr => rfl
  | cons a ar ih =>
    intro y z h1 h2
    cases y with
    | nil => cases h1
    | cons b br =>
      cases z with
      | nil => cases h2
      | cons c cr =>
        have h1m : (match charCmp a b with
          | .eq => listCmp ar br
          | o => o) = .lt := h1
        have h2m : (match charCmp b c with
          | .eq => listCmp br cr
          | o => o) = .lt := h2
        show (match charCmp a c with
          | .eq => listCmp ar cr
          | o => o) = .lt
        cases hab : charCmp a b with
        | gt => rw [hab] at h1m; cases h1m
        | eq =>
          rw [hab] at h1m
          cases hbc : charCmp b c with
          | gt => rw [hbc] at h2m; cases h2m
          | eq =>
            rw [hbc] at h2m
            rw [charCmp_lawful.eq_trans a b c hab hbc]
            exact ih br cr h1m h2m
          | lt =>
            rw [charCmp_lawful.eq_lt_trans a b c hab hbc]
        | lt =>
          cases hbc : charCmp b c with
          | gt => rw [hbc] at h2m; cases h2m
          | eq => rw [charCmp_lawful.lt_eq_trans a b c hab hbc]
          | lt => rw [charCmp_lawful.lt_trans a b c hab hbc]

lemma listCmp_lawful : IsLawfulCmp listCmp where
  swap_eq := listCmp_swap
  eq_trans a b d h1 h2 :=
    (listCmp_eq_iff a d).mpr (((listCmp_eq_iff a b).mp h1).trans ((listCmp_eq_iff b d).mp h2))
  eq_lt_trans a b d h1 h2 := by rw [(listCmp_eq_iff a b).mp h1]; exact h2
  lt_eq_trans a b d h1 h2 := by rw [← (listCmp_eq_iff b d).mp h2]; exact h1
  lt_trans := listCmp_lt_trans

lemma combined_eq_iff {α : Type} (p s : α → α → Ordering) (a b : α) :
    (if p a b = .eq then s a b else p a b) = .eq ↔ p a b = .eq ∧ s a b = .eq := by
  by_cases h : p a b = .eq
  · rw [if_pos h]; simp [h]
  · rw [if_neg h]; simp [h]

lemma combined_lt_iff {α : Type} (p s : α → α → Ordering) (a b : α) :
    (if p a b = .eq then s a b else p a b) = .lt
      ↔ (p a b = .eq ∧ s a b = .lt) ∨ p a b = .lt := by
  by_cases h : p a b = .eq
  · rw [if_pos h]
    simp [h]
  · rw [if_neg h]
    simp [h]

lemma swap_eq_of_eq {o : Ordering} (h : o = .eq) : o.swap = .eq := by rw [h]; rfl

lemma eq_of_swap_eq {o : Ordering} (h : o.swap = .eq) : o = .eq := by
  cases o with
  | lt => cases h
  | eq => rfl
  | gt => cases h

lemma combineCmp_lawful {α : Type} {p s : α → α → Ordering}
    (hp : IsLawfulCmp p) (hs : IsLawfulCmp s) :
    IsLawfulCmp (fun a b => if p a b = .eq then s a b else p a b) where
  swap_eq a b := by
    by_cases hab : p a b = .eq
    · have hba : p b a = .eq := eq_of_swap_eq (by rw [← hp.swap_eq]; exact hab)
      rw [if_pos hab, if_pos hba]
      exact hs.swap_eq a b
    · have hba : p b a ≠ .eq := by
        intro hc
        exact hab (by rw [hp.swap_eq a b, hc]; rfl)
      rw [if_neg hab, if_neg hba]
      exact hp.swap_eq a b
  eq_trans a b d h1 h2 := by
    obtain ⟨hp1, hs1⟩ := (combined_eq_iff p s a b).mp h1
    obtain ⟨hp2, hs2⟩ := (combined_eq_iff p s b d).mp h2
    exact (combined_eq_iff p s a d).mpr
      ⟨hp.eq_trans a b d hp1 hp2, hs.eq_trans a b d hs1 hs2⟩
  eq_lt_trans a b d h1 h2 := by
    obtain ⟨hp1, hs1⟩ := (combined_eq_iff p s a b).mp h1
    rcases (combined_lt_iff p s b d).mp h2 with ⟨hp2, hs2⟩ | hp2
    · exact (combined_lt_iff p s a d).mpr
        (Or.inl ⟨hp.eq_trans a b d hp1 hp2, hs.eq_lt_trans a b d hs1 hs2⟩)
    · exact (combined_lt_iff p s a d).mpr (Or.inr (hp.eq_lt_trans a b d hp1 hp2))
  lt_eq_trans a b d h1 h2 := by
    obtain ⟨hp2, hs2⟩ := (combined_eq_iff p s b d).mp h2
    rcases (combined_lt_iff p s a b).mp h1 with ⟨hp1, hs1⟩ | hp1
    · exact (combined_lt_iff p s a d).mpr
        (Or.inl ⟨hp.eq_trans a b d hp1 hp2, hs.lt_eq_trans a b d hs1 hs2⟩)
    · exact (combined_lt_iff p s a d).mpr (Or.inr (hp.lt_eq_trans a b d hp1 hp2))
  lt_trans a b d h1 h2 := by
    rcases (combined_lt_iff p s a b).mp h1 with ⟨hp1, hs1⟩ | hp1 <;>
      rcases (combined_lt_iff p s b d).mp h2 with ⟨hp2, hs2⟩ | hp2
    · exact (combined_lt_iff p s a d).mpr
        (Or.inl ⟨hp.eq_trans a b d hp1 hp2, hs.lt_trans a b d hs1 hs2⟩)
    · exact (combined_lt_iff p s a d).mpr (Or.inr (hp.eq_lt_trans a b d hp1 hp2))
    · exact (combined_lt_iff p s a d).mpr (Or.inr (hp.lt_eq_trans a b d hp1 hp2))
    · exact (combined_lt_iff p s a d).mpr (Or.inr (hp.lt_trans a b d hp1 hp2))

lemma compare_post_dates_lawful (parse : String → Option Int) (lower : String → String)
    (dir : SortDirection) :
    IsLawfulCmp (fun a b => compare_post_dates parse lower a b dir) := by
  have hs : IsLawfulCmp (fun a b : PostSummaryM => strCmp (lower a.title) (lower b.title)) :=
    (listCmp_lawful.comap String.data).comap (fun p : PostSummaryM => lower p.title)
  exact combineCmp_lawful (primaryCmp_lawful parse dir) hs

lemma lawful_le_trans {α : Type} {c : α → α → Ordering} (h : IsLawfulCmp c) :
    ∀ a b d, c a b ≠ .gt → c b d ≠ .gt → c a d ≠ .gt := by
  intro a b d h1 h2
  have v1 : c a b = .lt ∨ c a b = .eq := by cases hv : c a b <;> simp_all
  have v2 : c b d = .lt ∨ c b d = .eq := by cases hv : c b d <;> simp_all
  rcases v1 with v1 | v1 <;> rcases v2 with v2 | v2
  · rw [h.lt_trans a b d v1 v2]; simp
  · rw [h.lt_eq_trans a b d v1 v2]; simp
  · rw [h.eq_lt_trans a b d v1 v2]; simp
  · rw [h.eq_trans a b d v1 v2]; simp

lemma lawful_le_total {α : Type} {c : α → α → Ordering} (h : IsLawfulCmp c) :
    ∀ a b, c a b ≠ .gt ∨ c b a ≠ .gt := by
  intro a b
  by_contra hc
  push_neg at hc
  obtain ⟨h1, h2⟩ := hc
  have := h.swap_eq a b
  rw [h1, h2] at this
  cases this

/-- The boolean not-greater relation used to model Rust's stable
`sort_by(comparator)` through `List.mergeSort`. -/
def dateLe (parse : String → Option Int) (lower : String → String) (dir : SortDirection)
    (a b : PostSummaryM) : Bool :=
  decide (compare_post_dates parse lower a b dir ≠ Ordering.gt)

/-- Rust `Vec::sort_by(compare_post_dates)`. -/
def sortByDate (parse : String → Option Int) (lower : String → String)
    (dir : SortDirection) (posts : List PostSummaryM) : List PostSummaryM :=
  posts.mergeSort (dateLe parse lower dir)

/-- One `HashMap::remove` on the id-keyed association list: removes and
returns the first binding of the id, if any. -/
def removeFirstById (m : List (String × PostSummaryM)) (id : String) :
    Option PostSummaryM × List (String × PostSummaryM) :=
  match m with
  | [] => (none, [])
  | e :: rest =>
    if e.1 == id then (some e.2, rest)
    else
      ((removeFirstById rest id).1, e :: (removeFirstById rest id).2)

/-- The manual-order extraction loop of `order_posts`: each listed id
pulls its post out of the map, unmatched ids are skipped silently. -/
def extractManual (byId : List (String × PostSummaryM)) :
    List String → List PostSummaryM × List (String × PostSummaryM)
  | [] => ([], byId)
  | id :: rest =>
    match removeFirstById byId id with
    | (some p, byId2) =>
      ((p :: (extractManual byId2 rest).1), (extractManual byId2 rest).2)
    | (none, byId2) => extractManual byId2 rest

/-- Embeds `export.rs::order_posts`: the `HashMap` keyed by post id is
modelled as the id-keyed association list, faithful to the original when
post ids are pairwise distinct. -/
def order_posts (parse : String → Option Int) (lower : String → String)
    (posts : List PostSummaryM) (order_mode : OrderMode) (manual_order : List String)
    (sort_direction : SortDirection) : List PostSummaryM :=
  match order_mode with
  | .manual =>
    if manual_order.isEmpty then sortByDate parse lower sort_direction posts
    else
      (extractManual (posts.map (fun p => (p.id, p))) manual_order).1
        ++ sortByDate parse lower sort_direction
            ((extractManual (posts.map (fun p => (p.id, p))) manual_order).2.map
              (fun e => e.2))
  | .date => sortByDate parse lower sort_direction posts

lemma removeFirstById_eq (id : String) :
    ∀ m : List (String × PostSummaryM),
      removeFirstById m id
        = ((m.find? (fun e => e.1 == id)).map (fun e => e.2),
            m.eraseP (fun e => e.1 == id)) := by
  intro m
  induction m with
  | nil => rfl
  | cons e rest ih =>
    unfold removeFirstById
    by_cases he : e.1 == id
    · rw [if_pos he]
      rw [List.find?_cons, List.eraseP_cons]
      rw [he]
      rfl
    · have he0 : (e.1 == id) = false := by simpa using he
      rw [if_neg he, ih]
      rw [List.find?_cons, List.eraseP_cons, he0]
      rfl

lemma find?_eraseP_of_ne (j i : String) (hne : j ≠ i) :
    ∀ m : List (String × PostSummaryM),
      (m.eraseP (fun e => e.1 == i)).find? (fun e => e.1 == j)
        = m.find? (fun e => e.1 == j) := by
  intro m
  induction m with
  | nil => rfl
  | cons e rest ih =>
    rw [List.eraseP_cons]
    by_cases he : e.1 == i
    · have hei : e.1 = i := by simpa using he
      have hej : (e.1 == j) = false := by
        rw [beq_eq_false_iff_ne, hei]
        exact fun hc => hne hc.symm
      rw [he]
      show rest.find? (fun e => e.1 == j) = List.find? (fun e => e.1 == j) (e :: rest)
      rw [List.find?_cons, hej]
    · have he0 : (e.1 == i) = false := by simpa using he
      rw [he0]
      show List.find? (fun e => e.1 == j) (e :: rest.eraseP (fun e => e.1 == i))
        = List.find? (fun e => e.1 == j) (e :: rest)
      rw [List.find?_cons, List.find?_cons]
      cases hej : (e.1 == j) with
      | true => rfl
      | false => exact ih

lemma filter_shrink_of_not_key (i : String) (rest : List String) :
    ∀ m : List (String × PostSummaryM), i ∉ m.map (fun e => e.1) →
      m.filter (fun e => !((i :: rest).contains e.1))
        = m.filter (fun e => !(rest.contains e.1)) := by
  intro m hi
  refine List.filter_congr ?_
  intro e he
  have : e.1 ≠ i := by
    intro hc
    exact hi (List.mem_map.mpr ⟨e, he, hc⟩)
  have hcons : ((i :: rest).contains e.1) = (rest.contains e.1) := by
    show ((e.1 == i) || rest.elem e.1) = rest.elem e.1
    have : (e.1 == i) = false := by simpa using this
    rw [this, Bool.false_or]
  rw [hcons]

/-- Erasing the first binding of a key that the filter rejects anyway
does not change the filter result. -/
lemma eraseP_filter_subsumed (i : String) (rest : List String) :
    ∀ m : List (String × PostSummaryM),
      (m.eraseP (fun e => e.1 == i)).filter (fun e => !((i :: rest).contains e.1))
        = m.filter (fun e => !((i :: rest).contains e.1)) := by
  intro m
  induction m with
  | nil => rfl
  | cons x xs ih =>
    rw [List.eraseP_cons]
    by_cases hx : x.1 == i
    · rw [hx]
      show xs.filter _ = List.filter _ (x :: xs)
      rw [List.filter_cons]
      have hdrop : (!((i :: rest).contains x.1)) = false := by
        have hxi : x.1 = i := by simpa using hx
        simp [hxi, List.contains_cons]
      rw [hdrop]
      rfl
    · have hx0 : (x.1 == i) = false := by simpa using hx
      rw [hx0]
      show List.filter _ (x :: xs.eraseP (fun e => e.1 == i)) = List.filter _ (x :: xs)
      rw [List.filter_cons, List.filter_cons, ih]

/-- Characterization of the extraction loop when post ids and manual ids
are duplicate-free: the picked posts are exactly the manual list's
lookups in order, and the leftover map holds the unnamed posts. -/
lemma extractManual_spec :
    ∀ (manual : List String) (m : List (String × PostSummaryM)),
      (m.map (fun e => e.1)).Nodup → manual.Nodup →
      (extractManual m manual).1
          = manual.filterMap (fun i => (m.find? (fun e => e.1 == i)).map (fun e => e.2))
        ∧ (extractManual m manual).2
          = m.filter (fun e => !(manual.contains e.1)) := by
  intro manual
  induction manual with
  | nil =>
    intro m hm _
    refine ⟨rfl, ?_⟩
    exact (List.filter_eq_self.mpr (fun a _ => rfl)).symm
  | cons i rest ih =>
    intro m hm hman
    have hrest : rest.Nodup := (List.nodup_cons.mp hman).2
    have hinotin : i ∉ rest := (List.nodup_cons.mp hman).1
    unfold extractManual
    rw [removeFirstById_eq]
    cases hfind : m.find? (fun e => e.1 == i) with
    | none =>
      dsimp only [Option.map]
      have hnokey : ∀ e ∈ m, e.1 ≠ i := by
        intro e he hc
        have := List.find?_eq_none.mp hfind e he
        simp [hc] at this
      have herase : m.eraseP (fun e => e.1 == i) = m := by
        apply List.eraseP_of_forall_not
        intro e he
        simp [hnokey e he]
      rw [herase]
      obtain ⟨g1, g2⟩ := ih m hm hrest
      refine ⟨?_, ?_⟩
      · rw [List.filterMap_cons, hfind]
        exact g1
      · rw [g2]
        symm
        apply filter_shrink_of_not_key i rest
        intro hc
        obtain ⟨e, he, hei⟩ := List.mem_map.mp hc
        exact hnokey e he hei
    | some e =>
      dsimp only [Option.map]
      have hei : e.1 = i := by
        have := List.find?_some hfind
        simpa using this
      have hmem : e ∈ m := List.mem_of_find?_eq_some hfind
      have hkeysErase : ((m.eraseP (fun e => e.1 == i)).map (fun e => e.1)).Nodup :=
        List.Nodup.sublist ((List.eraseP_sublist m).map (fun e => e.1)) hm
      obtain ⟨g1, g2⟩ := ih (m.eraseP (fun e => e.1 == i)) hkeysErase hrest
      obtain ⟨a, l1, l2, hl1, hpa, hsplit, herase⟩ :=
        @List.exists_of_eraseP _ (fun e => e.1 == i) m e hmem (by simp [hei])
      have hai : a.1 = i := by simpa using hpa
      have hiErased : i ∉ (m.eraseP (fun e => e.1 == i)).map (fun e => e.1) := by
        rw [herase]
        intro hc
        have hm2 : ((l1 ++ a :: l2).map (fun e => e.1)).Nodup := by
          rw [← hsplit]
          exact hm
        rw [List.map_append, List.map_cons, hai] at hm2
        rcases List.mem_map.mp hc with ⟨x, hx, hxi⟩
        rcases List.mem_append.mp hx with hx | hx
        · exact hl1 x hx (by simp [hxi])
        · have hnd := (List.nodup_append.mp hm2).2
          exact (List.nodup_cons.mp hnd.1).1 (hxi ▸ List.mem_map.mpr ⟨x, hx, rfl⟩)
      refine ⟨?_, ?_⟩
      · rw [List.filterMap_cons, hfind]
        dsimp only [Option.map]
        rw [g1]
        congr 1
        apply List.filterMap_congr
        intro j hj
        rw [find?_eraseP_of_ne j i (by intro hc; rw [hc] at hj; exact hinotin hj) m]
        cases List.find? (fun e => e.1 == j) m <;> rfl
      · rw [g2]
        rw [← filter_shrink_of_not_key i rest (m.eraseP (fun e => e.1 == i)) hiErased]
        exact eraseP_filter_subsumed i rest m

lemma find?_of_split (p : (String × PostSummaryM) → Bool) :
    ∀ (l1 : List (String × PostSummaryM)) (a : String × PostSummaryM)
      (l2 : List (String × PostSummaryM)),
      (∀ b ∈ l1, ¬p b = true) → p a = true →
      List.find? p (l1 ++ a :: l2) = some a := by
  intro l1
  induction l1 with
  | nil =>
    intro a l2 _ hpa
    rw [List.nil_append, List.find?_cons, hpa]
  | cons b bs ih =>
    intro a l2 hno hpa
    rw [List.cons_append, List.find?_cons]
    have hb : p b = false := by
      have := hno b (List.mem_cons_self b bs)
      simpa using this
    rw [hb]
    exact ih a l2 (fun x hx => hno x (List.mem_cons_of_mem b hx)) hpa

lemma values_perm_of_find? {m : List (String × PostSummaryM)} {i : String}
    {e : String × PostSummaryM} (hfind : m.find? (fun x => x.1 == i) = some e) :
    (m.map (fun x => x.2)).Perm
      (e.2 :: (m.eraseP (fun x => x.1 == i)).map (fun x => x.2)) := by
  have hmem := List.mem_of_find?_eq_some hfind
  have hpe := List.find?_some hfind
  obtain ⟨a, l1, l2, hl1, hpa, hsplit, herase⟩ :=
    @List.exists_of_eraseP _ (fun x => x.1 == i) m e hmem hpe
  have hea : e = a := by
    have hfa := find?_of_split (fun x => x.1 == i) l1 a l2 hl1 hpa
    rw [hsplit, hfa] at hfind
    exact (Option.some_inj.mp hfind).symm
  rw [herase, hsplit]
  simp only [List.map_append, List.map_cons]
  rw [hea]
  exact List.perm_middle

/-- The extraction loop only redistributes the map's values. -/
lemma extractManual_perm :
    ∀ (manual : List String) (m : List (String × PostSummaryM)),
      ((extractManual m manual).1
        ++ (extractManual m manual).2.map (fun e => e.2)).Perm
        (m.map (fun e => e.2)) := by
  intro manual
  induction manual with
  | nil => intro m; exact List.Perm.refl _
  | cons i rest ih =>
    intro m
    unfold extractManual
    rw [removeFirstById_eq]
    cases hfind : m.find? (fun e => e.1 == i) with
    | none =>
      dsimp only [Option.map]
      have herase : m.eraseP (fun e => e.1 == i) = m := by
        apply List.eraseP_of_forall_not
        intro e he
        have := List.find?_eq_none.mp hfind e he
        simpa using this
      rw [herase]
      exact ih m
    | some e =>
      dsimp only [Option.map]
      rw [List.cons_append]
      exact ((ih (m.eraseP (fun x => x.1 == i))).cons e.2).trans
        (values_perm_of_find? hfind).symm

lemma dateLe_trans (parse : String → Option Int) (lower : String → String)
    (dir : SortDirection) :
    ∀ a b c, dateLe parse lower dir a b = true → dateLe parse lower dir b c = true →
      dateLe parse lower dir a c = true := by
  intro a b c h1 h2
  unfold dateLe at h1 h2 ⊢
  rw [decide_eq_true_iff] at h1 h2 ⊢
  exact lawful_le_trans (compare_post_dates_lawful parse lower dir) a b c h1 h2

lemma dateLe_total (parse : String → Option Int) (lower : String → String)
    (dir : SortDirection) :
    ∀ a b, (dateLe parse lower dir a b || dateLe parse lower dir b a) = true := by
  intro a b
  unfold dateLe
  rw [Bool.or_eq_true, decide_eq_true_iff, decide_eq_true_iff]
  exact lawful_le_total (compare_post_dates_lawful parse lower dir) a b

lemma find?_keyed (i : String) :
    ∀ posts : List PostSummaryM,
      ((posts.map (fun p => (p.id, p))).find? (fun e => e.1 == i)).map (fun e => e.2)
        = posts.find? (fun p => p.id == i) := by
  intro posts
  induction posts with
  | nil => rfl
  | cons p ps ih =>
    rw [List.map_cons, List.find?_cons, List.find?_cons]
    cases hp : (p.id == i) with
    | true => rfl
    | false => exact ih

lemma keyed_map_snd (posts : List PostSummaryM) :
    (posts.map (fun p => (p.id, p))).map (fun e => e.2) = posts := by
  rw [List.map_map]
  exact List.map_id posts

lemma keyed_map_fst (posts : List PostSummaryM) :
    (posts.map (fun p => (p.id, p))).map (fun e => e.1) = posts.map (fun p => p.id) := by
  rw [List.map_map]
  rfl

/-- C8: manual-sequence ordering puts the posts named in the manual list
first, in exactly the given order, skipping unmatched ids silently, and
appends every unnamed post afterward sorted by the by-date comparator —
the appended tail is a permutation of the unnamed posts and is sorted
with respect to the comparator. -/
theorem C8_manual_sequence_order (parse : String → Option Int) (lower : String → String)
    (posts : List PostSummaryM) (manual : List String) (dir : SortDirection)
    (hids : (posts.map (fun p => p.id)).Nodup) (hman : manual.Nodup) :
    order_posts parse lower posts OrderMode.manual manual dir
        = manual.filterMap (fun i => posts.find? (fun p => p.id == i))
          ++ sortByDate parse lower dir (posts.filter (fun p => !(manual.contains p.id)))
    ∧ (sortByDate parse lower dir
          (posts.filter (fun p => !(manual.contains p.id)))).Perm
        (posts.filter (fun p => !(manual.contains p.id)))
    ∧ (sortByDate parse lower dir
          (posts.filter (fun p => !(manual.contains p.id)))).Pairwise
        (fun a b => dateLe parse lower dir a b = true) := by
  refine ⟨?_, List.mergeSort_perm _ _,
    List.sorted_mergeSort (dateLe_trans parse lower dir) (dateLe_total parse lower dir) _⟩
  unfold order_posts
  dsimp only
  by_cases hm : manual.isEmpty
  · rw [if_pos hm]
    have hmanual : manual = [] := by
      cases manual with
      | nil => rfl
      | cons x xs => cases hm
    subst hmanual
    rw [List.filterMap_nil, List.nil_append]
    unfold sortByDate
    congr 1
    symm
    apply List.filter_eq_self.mpr
    intro a ha
    rfl
  · rw [if_neg hm]
    have hkeys : ((posts.map (fun p => (p.id, p))).map (fun e => e.1)).Nodup := by
      rw [keyed_map_fst]
      exact hids
    obtain ⟨g1, g2⟩ := extractManual_spec manual (posts.map (fun p => (p.id, p))) hkeys hman
    rw [g1, g2]
    congr 1
    · apply List.filterMap_congr
      intro i _
      exact find?_keyed i posts
    · unfold sortByDate
      congr 1
      rw [List.filter_map]
      have : ((fun e : String × PostSummaryM => !(manual.contains e.1))
          ∘ (fun p : PostSummaryM => (p.id, p)))
          = (fun p : PostSummaryM => !(manual.contains p.id)) := rfl
      rw [this, List.map_map]
      exact List.map_id _

/-- C8 witness: a three-post set with one manually named post. -/
theorem C8_manual_sequence_order_witness :
    order_posts (fun _ => none) (fun s => s)
        [⟨"a", "A", "t1"⟩, ⟨"b", "B", "t2"⟩, ⟨"c", "C", "t3"⟩]
        OrderMode.manual ["b", "zz"] SortDirection.asc
      = ["b", "zz"].filterMap (fun i =>
          [(⟨"a", "A", "t1"⟩ : PostSummaryM), ⟨"b", "B", "t2"⟩, ⟨"c", "C", "t3"⟩].find?
            (fun p => p.id == i))
        ++ sortByDate (fun _ => none) (fun s => s) SortDirection.asc
            ([(⟨"a", "A", "t1"⟩ : PostSummaryM), ⟨"b", "B", "t2"⟩, ⟨"c", "C", "t3"⟩].filter
              (fun p => !(["b", "zz"].contains p.id))) :=
  (C8_manual_sequence_order (fun _ => none) (fun s => s)
    [⟨"a", "A", "t1"⟩, ⟨"b", "B", "t2"⟩, ⟨"c", "C", "t3"⟩] ["b", "zz"] SortDirection.asc
    (by decide) (by decide)).1

/-- C10: for duplicate-free post ids, `order_posts` returns a
permutation of its input for every order mode, manual list, and sort
direction — no post is lost or duplicated. -/
theorem C10_order_posts_permutation (parse : String → Option Int) (lower : String → String)
    (posts : List PostSummaryM) (mode : OrderMode) (manual : List String)
    (dir : SortDirection) (hids : (posts.map (fun p => p.id)).Nodup) :
    (order_posts parse lower posts mode manual dir).Perm posts := by
  cases mode with
  | date => exact List.mergeSort_perm posts _
  | manual =>
    unfold order_posts
    dsimp only
    by_cases hm : manual.isEmpty
    · rw [if_pos hm]
      exact List.mergeSort_perm posts _
    · rw [if_neg hm]
      have hbase := extractManual_perm manual (posts.map (fun p => (p.id, p)))
      rw [keyed_map_snd] at hbase
      have hsort : (sortByDate parse lower dir
          ((extractManual (posts.map (fun p => (p.id, p))) manual).2.map
            (fun e => e.2))).Perm
          ((extractManual (posts.map (fun p => (p.id, p))) manual).2.map (fun e => e.2)) :=
        List.mergeSort_perm _ _
      exact (List.Perm.append_left _ hsort).trans hbase

/-- C10 witness: a concrete three-post set under manual ordering. -/
theorem C10_order_posts_permutation_witness :
    (order_posts (fun _ => none) (fun s => s)
        [⟨"a", "A", "t1"⟩, ⟨"b", "B", "t2"⟩, ⟨"c", "C", "t3"⟩]
        OrderMode.manual ["c"] SortDirection.desc).Perm
      [⟨"a", "A", "t1"⟩, ⟨"b", "B", "t2"⟩, ⟨"c", "C", "t3"⟩] :=
  C10_order_posts_permutation (fun _ => none) (fun s => s)
    [⟨"a", "A", "t1"⟩, ⟨"b", "B", "t2"⟩, ⟨"c", "C", "t3"⟩]
    OrderMode.manual ["c"] SortDirection.desc (by decide)

/-! ## C9: export job validation (`export.rs::run_export_job`) -/

/-- Embeds `models.rs::ExportFormat`. -/
inductive ExportFormat where
  | epub
  | txt
deriving Repr, DecidableEq

/-- Embeds `models.rs::ExportMode`. -/
inductive ExportMode where
  | entireProfile
  | specificPosts
deriving Repr, DecidableEq

/-- Embeds `models.rs::Granularity`. -/
inductive Granularity where
  | perPost
  | combined
deriving Repr, DecidableEq

/-- The fields of `models.rs::ExportJobRequest` the orchestrator's
validation, selection, ordering and file naming read. -/
structure ExportJobRequestM where
  publication_title : String
  mode : ExportMode
  selected_post_ids : List String
  order_mode : OrderMode
  manual_order : List String
  sort_direction : SortDirection
  formats : List ExportFormat
  granularity : Granularity
  output_dir : String
  posts : List PostSummaryM

/-- A fetched post's content (`models.rs::PostContent`), the fetch
itself being the external transport capability. -/
structure PostContentR where
  summary : PostSummaryM
  plain_text : String
  epub_body : String

/-- Embeds `models.rs::ExportJobResult` (failures as id-reason pairs). -/
structure ExportJobResultM where
  succeeded : List String
  failed : List (String × String)
  output_files : List String
  warnings : List String

/-- Embeds `export.rs::select_posts`. -/
def select_posts (req : ExportJobRequestM) : Except String (List PostSummaryM) :=
  match req.mode with
  | .entireProfile => Except.ok req.posts
  | .specificPosts =>
    if req.selected_post_ids.isEmpty then Except.error "No specific posts selected."
    else Except.ok (req.posts.filter (fun p => req.selected_post_ids.contains p.id))

/-- One character of `utils.rs::sanitize_filename`. -/
def sanitizeChar (ch : Char) : Char :=
  if ch.isAlphanum || ch = '-' || ch = '_' || ch = ' ' then ch else '_'

/-- Whether the character list contains two adjacent spaces
(Rust `clean.contains("  ")`). -/
def hasDoubleSpace : List Char → Bool
  | [] => false
  | [_] => false
  | c :: d :: rest => decide (c = ' ' ∧ d = ' ') || hasDoubleSpace (d :: rest)

/-- One `String::replace("  ", " ")` pass over the characters. -/
def replaceDoubleSpacePass : List Char → List Char
  | [] => []
  | [c] => [c]
  | c :: d :: rest =>
    if c = ' ' ∧ d = ' ' then ' ' :: replaceDoubleSpacePass rest
    else c :: replaceDoubleSpacePass (d :: rest)

lemma replaceDoubleSpacePass_length_le :
    ∀ l : List Char, (replaceDoubleSpacePass l).length ≤ l.length := by
  intro l
  induction l using replaceDoubleSpacePass.induct with
  | case1 => simp [replaceDoubleSpacePass]
  | case2 c => simp [replaceDoubleSpacePass]
  | case3 c d rest hsp ih =>
    unfold replaceDoubleSpacePass
    rw [if_pos hsp]
    simp only [List.length_cons]
    omega
  | case4 c d rest hsp ih =>
    unfold replaceDoubleSpacePass
    rw [if_neg hsp]
    simp only [List.length_cons] at ih ⊢
    omega

lemma replaceDoubleSpacePass_length_lt :
    ∀ l : List Char, hasDoubleSpace l = true →
      (replaceDoubleSpacePass l).length < l.length := by
  intro l
  induction l using replaceDoubleSpacePass.induct with
  | case1 => intro h; cases h
  | case2 c => intro h; cases h
  | case3 c d rest hsp ih =>
    intro h
    unfold replaceDoubleSpacePass
    rw [if_pos hsp]
    have := replaceDoubleSpacePass_length_le rest
    simp only [List.length_cons]
    omega
  | case4 c d rest hsp ih =>
    intro h
    unfold replaceDoubleSpacePass
    rw [if_neg hsp]
    have hrest : hasDoubleSpace (d :: rest) = true := by
      unfold hasDoubleSpace at h
      rcases Bool.or_eq_true_iff.mp h with h | h
      · exact absurd (of_decide_eq_true h) hsp
      · exact h
    have := ih hrest
    simp only [List.length_cons] at this ⊢
    omega

/-- The `while clean.contains("  ")` collapse loop of
`sanitize_filename`. -/
def collapseDoubleSpaces (l : List Char) : List Char :=
  if h : hasDoubleSpace l = true then collapseDoubleSpaces (replaceDoubleSpacePass l)
  else l
termination_by l.length
decreasing_by exact replaceDoubleSpacePass_length_lt l h

/-- Embeds `utils.rs::sanitize_filename`: keep ASCII alphanumerics,
dash, underscore and space (everything else becomes underscore), trim,
collapse runs of double spaces, strip leading/trailing dots, fall back
to `untitled`, and cap at 120 characters. -/
def sanitize_filename (input : String) : String :=
  let result := input.data.map sanitizeChar
  let clean := collapseDoubleSpaces (trimChars result)
  let clean2 := ((clean.dropWhile (fun ch => ch = '.')).reverse.dropWhile
    (fun ch => ch = '.')).reverse
  if clean2.isEmpty then "untitled" else String.mk (clean2.take 120)

/-- The TXT output file names `write_txt_outputs` produces. -/
def txt_output_names (publication_title : String) (posts : List PostContentR)
    (granularity : Granularity) : List String :=
  match granularity with
  | .perPost => posts.map (fun post =>
      sanitize_filename publication_title ++ " - "
        ++ sanitize_filename post.summary.title ++ ".txt")
  | .combined => [sanitize_filename publication_title ++ " - combined.txt"]

/-- The EPUB output file names `write_epub_outputs` produces. -/
def epub_output_names (publication_title : String) (posts : List PostContentR)
    (granularity : Granularity) : List String :=
  match granularity with
  | .perPost => posts.map (fun post =>
      sanitize_filename publication_title ++ " - "
        ++ sanitize_filename post.summary.title ++ ".epub")
  | .combined => [sanitize_filename publication_title ++ " - combined.epub"]

/-- The per-post fetch loop of `run_export_job`: successes accumulate
ids and contents, failures accumulate id-reason pairs, in input order. -/
def fetchAll (fetch : PostSummaryM → Except String PostContentR)
    (posts : List PostSummaryM) : List String × List (String × String) × List PostContentR :=
  posts.foldl (fun acc s =>
    match fetch s with
    | Except.ok content =>
      (acc.1 ++ [content.summary.id], acc.2.1, acc.2.2 ++ [content])
    | Except.error e => (acc.1, acc.2.1 ++ [(s.id, e)], acc.2.2)) ([], [], [])

/-- Embeds `export.rs::run_export_job` over the external capabilities:
`dirWritable` models `fs::create_dir_all` succeeding, `fetch` the
network fetch of one post, `resolveCover` the cover acquisition.  The
validation chain (formats, output directory, selection) runs before any
of the capabilities is consulted. -/
def run_export_job (parse : String → Option Int) (lower : String → String)
    (req : ExportJobRequestM) (dirWritable : Bool)
    (fetch : PostSummaryM → Except String PostContentR)
    (resolveCover : Except String (Option CoverAsset)) : Except String ExportJobResultM :=
  if req.formats.isEmpty then Except.error "At least one format must be selected."
  else if (rustTrim req.output_dir).isEmpty then Except.error "Output directory is required."
  else if !dirWritable then Except.error "Failed to create output directory."
  else
    match select_posts req with
    | Except.error e => Except.error e
    | Except.ok selected =>
      if selected.isEmpty then Except.error "No posts matched the current selection."
      else
        let ordered := order_posts parse lower selected req.order_mode req.manual_order
          req.sort_direction
        let fetched := fetchAll fetch ordered
        if fetched.2.2.isEmpty then
          Except.error "All post downloads failed; no output generated."
        else
          let coverState : Option CoverAsset × List String :=
            if req.formats.contains ExportFormat.epub then
              match resolveCover with
              | Except.ok cover => (cover, [])
              | Except.error e => (none, ["Cover setup issue: " ++ e])
            else (none, [])
          let txtFiles := if req.formats.contains ExportFormat.txt then
              txt_output_names req.publication_title fetched.2.2 req.granularity
            else []
          let epubFiles := if req.formats.contains ExportFormat.epub then
              epub_output_names req.publication_title fetched.2.2 req.granularity
            else []
          Except.ok
            { succeeded := fetched.1
              failed := fetched.2.1
              output_files := txtFiles ++ epubFiles
              warnings := coverState.2 }

/-- The selection phase yields zero posts. -/
def selectionEmpty (req : ExportJobRequestM) : Prop :=
  match req.mode with
  | .entireProfile => req.posts = []
  | .specificPosts =>
    req.selected_post_ids ≠ []
      ∧ req.posts.filter (fun p => req.selected_post_ids.contains p.id) = []

/-- C9: the job fails before any network activity when no format is
selected, the output location is blank or unwritable, the
specific-posts id list is empty, or the resolved selection is empty
(in particular explicit-subset mode with an empty intersection): the
result is an error — which carries no output-file list — and is
independent of the fetch and cover capabilities, i.e. no network
activity can influence or precede the failure. -/
theorem C9_fail_fast (parse : String → Option Int) (lower : String → String)
    (req : ExportJobRequestM) (dirWritable : Bool)
    (fetch : PostSummaryM → Except String PostContentR)
    (resolveCover : Except String (Option CoverAsset))
    (hfail : req.formats = [] ∨ rustTrim req.output_dir = "" ∨ dirWritable = false
      ∨ (req.mode = ExportMode.specificPosts ∧ req.selected_post_ids = [])
      ∨ selectionEmpty req) :
    (run_export_job parse lower req dirWritable fetch resolveCover).isOk = false
    ∧ ∀ (fetch2 : PostSummaryM → Except String PostContentR)
        (resolveCover2 : Except String (Option CoverAsset)),
        run_export_job parse lower req dirWritable fetch resolveCover
          = run_export_job parse lower req dirWritable fetch2 resolveCover2 := by
  unfold run_export_job
  by_cases h1 : req.formats.isEmpty
  · rw [if_pos h1]
    exact ⟨rfl, fun _ _ => by rw [if_pos h1]⟩
  · rw [if_neg h1]
    by_cases h2 : (rustTrim req.output_dir).isEmpty
    · rw [if_pos h2]
      exact ⟨rfl, fun _ _ => by rw [if_neg h1, if_pos h2]⟩
    · rw [if_neg h2]
      by_cases h3 : (!dirWritable) = true
      · rw [if_pos h3]
        exact ⟨rfl, fun _ _ => by rw [if_neg h1, if_neg h2, if_pos h3]⟩
      · rw [if_neg h3]
        have hw : dirWritable = true := by
          cases dirWritable with
          | true => rfl
          | false => simp at h3
        have hsel : ∀ selected, select_posts req = Except.ok selected → selected = [] := by
          intro selected hok
          rcases hfail with hf | hf | hf | hf | hf
          · exact absurd (by rw [hf]; rfl) h1
          · exact absurd (by rw [hf]; rfl) h2
          · rw [hf] at hw; cases hw
          · unfold select_posts at hok
            rw [hf.1] at hok
            rw [if_pos (by rw [hf.2]; rfl)] at hok
            cases hok
          · unfold selectionEmpty at hf
            unfold select_posts at hok
            cases hmode : req.mode with
            | entireProfile =>
              rw [hmode] at hok hf
              cases hok
              exact hf
            | specificPosts =>
              rw [hmode] at hok hf
              by_cases hids : req.selected_post_ids.isEmpty
              · rw [if_pos hids] at hok
                cases hok
              · rw [if_neg hids] at hok
                cases hok
                exact hf.2
        cases hps : select_posts req with
        | error e =>
          exact ⟨rfl, fun _ _ => by rw [if_neg h1, if_neg h2, if_neg h3]⟩
        | ok selected =>
          have hempty : selected = [] := hsel selected hps
          subst hempty
          exact ⟨rfl, fun _ _ => by rw [if_neg h1, if_neg h2, if_neg h3]; rfl⟩

/-- C9 witness: explicit-subset mode whose requested id matches no post
fails, independently of the transport. -/
theorem C9_fail_fast_witness :
    (run_export_job (fun _ => none) (fun s => s)
        { publication_title := "Pub", mode := ExportMode.specificPosts,
          selected_post_ids := ["zz"], order_mode := OrderMode.date,
          manual_order := [], sort_direction := SortDirection.asc,
          formats := [ExportFormat.txt], granularity := Granularity.perPost,
          output_dir := "out",
          posts := [⟨"a", "A", "t1"⟩] }
        true (fun _ => Except.error "no network") (Except.ok none)).isOk = false :=
  (C9_fail_fast (fun _ => none) (fun s => s)
    { publication_title := "Pub", mode := ExportMode.specificPosts,
      selected_post_ids := ["zz"], order_mode := OrderMode.date,
      manual_order := [], sort_direction := SortDirection.asc,
      formats := [ExportFormat.txt], granularity := Granularity.perPost,
      output_dir := "out",
      posts := [⟨"a", "A", "t1"⟩] }
    true (fun _ => Except.error "no network") (Except.ok none)
    (Or.inr (Or.inr (Or.inr (Or.inr (by constructor <;> decide)))))).1

end SubstackEpub
